import Mathlib

/-!
Image override engine of `clusterctl` (`cmd/clusterctl/client/config/imagemeta_client.go`).

A shallow embedding of `imageMeta`, `imageMetaClient` and of the parts of the
container image reference grammar (`github.com/docker/distribution/reference`)
that `ApplyToImage` calls.

Go strings are embedded as lists of characters.  Every string accepted by the
reference grammar is ASCII, where bytes and characters coincide, and the only
separators the code searches for (`/`, `:`, `@`) are ASCII as well.
-/

namespace config

/-- Go `string`. -/
abbrev Str := List Char

/-! ## The pieces of the Go `strings` package used by the code -/

/-- Text before and after the first occurrence of `c` (`strings.IndexRune` followed by
the two slices `s[:i]` and `s[i+1:]`); `none` when `c` does not occur. -/
def cutFirst (c : Char) : Str → Option (Str × Str)
  | [] => none
  | x :: xs =>
    if x = c then some ([], xs)
    else match cutFirst c xs with
      | some (a, b) => some (x :: a, b)
      | none => none

/-- Text before and after the last occurrence of `c`; `none` when `c` does not occur. -/
def cutLast (c : Char) : Str → Option (Str × Str)
  | [] => none
  | x :: xs =>
    match cutLast c xs with
    | some (a, b) => some (x :: a, b)
    | none => if x = c then some ([], xs) else none

/-- `strings.LastIndex(s, sep)` for a one-character separator: the index of the last
occurrence, `-1` when there is none. -/
def LastIndex (s : Str) (sep : Char) : Int :=
  match cutLast sep s with
  | some (a, _) => (a.length : Int)
  | none => -1

/-- `strings.TrimPrefix(s, p)`. -/
def TrimPrefix (s p : Str) : Str :=
  if p.isPrefixOf s then s.drop p.length else s

/-- `strings.TrimSuffix(s, p)`. -/
def TrimSuffix (s p : Str) : Str :=
  if p.isSuffixOf s then s.take (s.length - p.length) else s

/-- `strings.ToLower`, on the ASCII letters.  It is only used to test whether a string is
its own lower case; a string with a letter outside ASCII fails that test or the grammar
after it, with the same error in this embedding. -/
def ToLower (s : Str) : Str := s.map Char.toLower

/-! ## Errors -/

/-- The two error kinds of the engine.  All the error values of the reference package
(`ErrReferenceInvalidFormat`, `ErrTagInvalidFormat`, `ErrNameTooLong`, the digest
errors, ...) are identified as `InvalidImageReference`; a reader failure is wrapped
as `ConfigUnreadable`, carrying the reader's own error. -/
inductive Error where
  | InvalidImageReference : Error
  | ConfigUnreadable (cause : Str) : Error
  deriving DecidableEq, Repr

deriving instance DecidableEq for Except

/-! ## The reference grammar

Modelled from the standard container image reference grammar, as implemented by
`github.com/docker/distribution/reference` (v2.7) and `opencontainers/go-digest`;
that package is an external dependency and is not part of the sources. -/

/-- Modelled from the spec: character class `[a-z0-9]` of the path components. -/
def isLowerAlnum (c : Char) : Bool := c.isLower || c.isDigit

/-- Modelled from the spec: character class `\w`, that is `[0-9A-Za-z_]`. -/
def isWord (c : Char) : Bool := c.isAlphanum || c == '_'

/-- Modelled from the spec: character class `[\w.-]` of the tail of a tag. -/
def isTagChar (c : Char) : Bool := isWord c || c == '.' || c == '-'

/-- Modelled from the spec: character class `[a-f0-9]`. -/
def isLowerHex (c : Char) : Bool := c.isDigit || (decide ('a' ≤ c) && decide (c ≤ 'f'))

/-- Modelled from the spec: character class `[[:xdigit:]]`. -/
def isXDigit (c : Char) : Bool := isLowerHex c || (decide ('A' ≤ c) && decide (c ≤ 'F'))

/-- States of the automaton of the repository path
`[a-z0-9]+((?:[._]|__|[-]*)[a-z0-9]+)*(/[a-z0-9]+((?:[._]|__|[-]*)[a-z0-9]+)*)*`. -/
inductive PathState where
  | start       -- a component begins here: `[a-z0-9]` is required
  | alnum       -- inside an alphanumeric run (the only accepting state)
  | sep         -- after `.` or `__`: `[a-z0-9]` is required
  | underscore  -- after a single `_`
  | dash        -- after one or more `-`
  deriving DecidableEq, Repr

/-- Modelled from the spec: one transition of the path automaton. -/
def pathStep : PathState → Char → Option PathState
  | .start, c => if isLowerAlnum c then some .alnum else none
  | .alnum, c =>
    if isLowerAlnum c then some .alnum
    else if c = '.' then some .sep
    else if c = '_' then some .underscore
    else if c = '-' then some .dash
    else if c = '/' then some .start
    else none
  | .sep, c => if isLowerAlnum c then some .alnum else none
  | .underscore, c =>
    if isLowerAlnum c then some .alnum
    else if c = '_' then some .sep
    else none
  | .dash, c =>
    if isLowerAlnum c then some .alnum
    else if c = '-' then some .dash
    else none

/-- Modelled from the spec: run of the path automaton from a state. -/
def pathRun : PathState → Str → Bool
  | st, [] => decide (st = .alnum)
  | st, c :: cs =>
    match pathStep st c with
    | some st1 => pathRun st1 cs
    | none => false

/-- Modelled from the spec: the repository path grammar (one or more name components
separated by `/`). -/
def isPath (s : Str) : Bool := pathRun .start s

/-- States of the automaton of the registry host
`(?:[a-zA-Z0-9]|[a-zA-Z0-9][a-zA-Z0-9-]*[a-zA-Z0-9])(\.(...))*(:[0-9]+)?`. -/
inductive DomainState where
  | start      -- a host label begins here: `[a-zA-Z0-9]` is required
  | alnum      -- after an alphanumeric of a label (accepting)
  | dash       -- after `-` inside a label
  | portStart  -- after `:`: a digit is required
  | port       -- inside the port number (accepting)
  deriving DecidableEq, Repr

/-- Modelled from the spec: one transition of the host automaton. -/
def domainStep : DomainState → Char → Option DomainState
  | .start, c => if c.isAlphanum then some .alnum else none
  | .alnum, c =>
    if c.isAlphanum then some .alnum
    else if c = '-' then some .dash
    else if c = '.' then some .start
    else if c = ':' then some .portStart
    else none
  | .dash, c =>
    if c.isAlphanum then some .alnum
    else if c = '-' then some .dash
    else none
  | .portStart, c => if c.isDigit then some .port else none
  | .port, c => if c.isDigit then some .port else none

/-- Modelled from the spec: run of the host automaton from a state. -/
def domainRun : DomainState → Str → Bool
  | st, [] => decide (st = .alnum) || decide (st = .port)
  | st, c :: cs =>
    match domainStep st c with
    | some st1 => domainRun st1 cs
    | none => false

/-- Modelled from the spec: the registry host grammar, with an optional port. -/
def isDomain (s : Str) : Bool := domainRun .start s

/-- Modelled from the spec: the tag grammar `[\w][\w.-]{0,127}`. -/
def isTag : Str → Bool
  | [] => false
  | c :: cs => isWord c && cs.all isTagChar && decide (cs.length ≤ 127)

/-- Modelled from the spec: the algorithm part of a digest,
`[A-Za-z][A-Za-z0-9]*(?:[-_+.][A-Za-z][A-Za-z0-9]*)*`; the flag tells whether the
run is inside a component (accepting) or at the start of one. -/
def algorithmRun : Bool → Str → Bool
  | inside, [] => inside
  | false, c :: cs => if c.isAlpha then algorithmRun true cs else false
  | true, c :: cs =>
    if c.isAlphanum then algorithmRun true cs
    else if c = '-' ∨ c = '_' ∨ c = '+' ∨ c = '.' then algorithmRun false cs
    else false

/-- Modelled from the spec: the digest grammar of the reference package,
`algorithm:hex` with at least 32 hexadecimal digits. -/
def isDigest (s : Str) : Bool :=
  match cutFirst ':' s with
  | some (alg, hex) => algorithmRun false alg && hex.all isXDigit && decide (32 ≤ hex.length)
  | none => false

/-- Modelled from the spec: `digest.Parse` of `go-digest`: the algorithm is one of the
registered `sha256`, `sha384`, `sha512` and the encoded part is lower-case
hexadecimal of exactly twice the size of the hash. -/
def digestValidate (s : Str) : Bool :=
  match cutFirst ':' s with
  | some (alg, enc) =>
    ((decide (alg = "sha256".toList) && decide (enc.length = 64))
      || (decide (alg = "sha384".toList) && decide (enc.length = 96))
      || (decide (alg = "sha512".toList) && decide (enc.length = 128)))
    && enc.all isLowerHex
  | none => false

/-- Modelled from the spec: `anchoredIdentifierRegexp`, exactly sixty-four characters
of `[a-f0-9]`. -/
def isIdentifier (s : Str) : Bool := decide (s.length = 64) && s.all isLowerHex

/-! ## References -/

/-- Modelled from the spec: the `repository` struct of the reference package: registry
host and path. -/
structure repository where
  domain : Str
  path : Str
  deriving DecidableEq, Repr

/-- Modelled from the spec: the concrete types behind the `Named` interface: a bare `repository`, a
`taggedReference`, a `canonicalReference` (digest only) and a `reference` carrying both. -/
inductive Named where
  | repository (r : config.repository) : Named
  | taggedReference (r : config.repository) (tag : Str) : Named
  | canonicalReference (r : config.repository) (digest : Str) : Named
  | reference (r : config.repository) (tag : Str) (digest : Str) : Named
  deriving DecidableEq, Repr

/-- Modelled from the spec: the embedded `namedRepository` of a reference. -/
def Named.repo : Named → config.repository
  | .repository r => r
  | .taggedReference r _ => r
  | .canonicalReference r _ => r
  | .reference r _ _ => r

/-- Modelled from the spec: `repository.Name()`: the path alone when the host is empty,
otherwise host, `/`, path. -/
def repository.Name (r : repository) : Str :=
  if r.domain = [] then r.path else r.domain ++ '/' :: r.path

/-- Modelled from the spec: `Named.Name()`. -/
def Named.Name (n : Named) : Str := n.repo.Name

/-- Modelled from the spec: the type assertion `ref.(reference.Tagged)`: the tag, for the
two types that have a `Tag()` method. -/
def Named.asTagged : Named → Option Str
  | .taggedReference _ t => some t
  | .reference _ t _ => some t
  | _ => none

/-- Modelled from the spec: the type assertion `ref.(reference.Digested)`: the digest,
for the two types that have a `Digest()` method. -/
def Named.asDigested : Named → Option Str
  | .canonicalReference _ d => some d
  | .reference _ _ d => some d
  | _ => none

/-- Modelled from the spec: `String()` of each concrete type: the canonical form
`name[:tag][@digest]`. -/
def Named.String : Named → Str
  | .repository r => r.Name
  | .taggedReference r t => r.Name ++ ':' :: t
  | .canonicalReference r d => r.Name ++ '@' :: d
  | .reference r t d => r.Name ++ ':' :: t ++ '@' :: d

/-- Modelled from the spec: `getBestReferenceType`: the narrowest type for the parsed
fields (a matched name is never empty, so the digest-only case does not arise). -/
def getBestReferenceType (r : repository) (tag digest : Str) : Named :=
  if tag = [] then
    if digest = [] then .repository r else .canonicalReference r digest
  else if digest = [] then .taggedReference r tag
  else .reference r tag digest

/-- Modelled from the spec: the captures of `anchoredNameRegexp`: the optional host is
taken when the first segment is a host and the rest is a path; otherwise the whole
name has to be a path. -/
def splitName (name : Str) : Option repository :=
  match cutFirst '/' name with
  | some (d, p) =>
    if isDomain d && isPath p then some ⟨d, p⟩
    else if isPath name then some ⟨[], name⟩
    else none
  | none => if isPath name then some ⟨[], name⟩ else none

/-- Modelled from the spec: the split of `name[:tag]`: the tag follows the last `:`
unless a `/` comes after it (then that `:` introduces a port). -/
def splitTag (s : Str) : Str × Option Str :=
  match cutLast ':' s with
  | some (n, t) => if '/' ∈ t then (s, none) else (n, some t)
  | none => (s, none)

/-- Modelled from the spec: the split of `name[:tag][@digest]` at the `@`. -/
def splitDigest (s : Str) : Str × Option Str :=
  match cutFirst '@' s with
  | some (a, d) => (a, some d)
  | none => (s, none)

/-- Modelled from the spec: `NameTotalLengthMax`, the longest name `Parse` accepts. -/
def NameTotalLengthMax : Nat := 255

/-- Modelled from the spec: `reference.Parse`: match `ReferenceRegexp`
(`^(name)(?::(tag))?(?:@(digest))?$`), reject names longer than
`NameTotalLengthMax`, split the name into host and path, validate the digest. -/
def Parse (s : Str) : Except Error Named :=
  let (rest, dig) := splitDigest s
  let (name, tag) := splitTag rest
  match splitName name with
  | none => .error .InvalidImageReference
  | some repo =>
    if (match tag with | some t => !isTag t | none => false) then
      .error .InvalidImageReference
    else if (match dig with | some d => !isDigest d | none => false) then
      .error .InvalidImageReference
    else if name.length > NameTotalLengthMax then
      .error .InvalidImageReference
    else if (match dig with | some d => !digestValidate d | none => false) then
      .error .InvalidImageReference
    else
      .ok (getBestReferenceType repo (tag.getD []) (dig.getD []))

/-- Modelled from the spec: the former name of the default public registry. -/
def legacyDefaultDomain : Str := "index.docker.io".toList

/-- Modelled from the spec: the default public registry. -/
def defaultDomain : Str := "docker.io".toList

/-- Modelled from the spec: the default namespace of the default registry. -/
def officialRepoName : Str := "library".toList

/-- Modelled from the spec: `splitDockerDomain`: a first segment with a `.` or a `:`,
or equal to `localhost`, is the registry host; otherwise the default registry is
implied, and a path without `/` is put in its default namespace. -/
def splitDockerDomain (name : Str) : Str × Str :=
  let (domain, remainder) :=
    match cutFirst '/' name with
    | none => (defaultDomain, name)
    | some (a, b) =>
      if !(a.any fun c => c == '.' || c == ':') && a != "localhost".toList then
        (defaultDomain, name)
      else (a, b)
  let domain := if domain = legacyDefaultDomain then defaultDomain else domain
  let remainder :=
    if domain = defaultDomain ∧ '/' ∉ remainder then officialRepoName ++ '/' :: remainder
    else remainder
  (domain, remainder)

/-- Modelled from the spec: `reference.ParseNormalizedNamed`. -/
def ParseNormalizedNamed (s : Str) : Except Error Named :=
  if isIdentifier s then .error .InvalidImageReference
  else
    let (domain, remainder) := splitDockerDomain s
    let remoteName :=
      match cutFirst ':' remainder with
      | some (a, _) => a
      | none => remainder
    if ToLower remoteName ≠ remoteName then .error .InvalidImageReference
    else Parse (domain ++ '/' :: remainder)

/-- Modelled from the spec: `reference.WithTag`: the tag is validated, replaces any tag
of `name`, and a digest of `name` is kept. -/
def WithTag (name : Named) (tag : Str) : Except Error Named :=
  if !isTag tag then .error .InvalidImageReference
  else match name with
    | .canonicalReference r d => .ok (.reference r tag d)
    | .reference r _ d => .ok (.reference r tag d)
    | n => .ok (.taggedReference n.repo tag)

/-- Modelled from the spec: `reference.WithDigest`: the digest is validated, replaces
any digest of `name`, and a tag of `name` is kept. -/
def WithDigest (name : Named) (digest : Str) : Except Error Named :=
  if !isDigest digest then .error .InvalidImageReference
  else match name with
    | .taggedReference r t => .ok (.reference r t digest)
    | .reference r t _ => .ok (.reference r t digest)
    | n => .ok (.canonicalReference n.repo digest)

/-- Modelled from the spec: `reference.TrimNamed`: the bare repository. -/
def TrimNamed (ref : Named) : Named := .repository ref.repo

/-! ## `imageMeta` -/

/-- The `imageMeta` struct: the transformations to apply to an image. -/
structure imageMeta where
  Repository : Str
  Tag : Str
  deriving DecidableEq, Repr

/-- `imageMeta.Union`: the receiver after the call (`other` is only read). -/
def imageMeta.Union (i other : imageMeta) : imageMeta :=
  let i := if other.Repository ≠ [] then { i with Repository := other.Repository } else i
  let i := if other.Tag ≠ [] then { i with Tag := other.Tag } else i
  i

/-- The image name computed under a repository override: the text of `name` after
its last `/` (`strings.LastIndex`, the slice and `strings.TrimPrefix`). -/
def imageName (name : Str) : Str :=
  let imageNameIndex := LastIndex name '/'
  if imageNameIndex ≠ -1 then TrimPrefix (name.drop (imageNameIndex + 1).toNat) ['/']
  else name

/-- `imageMeta.ApplyToImage`. -/
def imageMeta.ApplyToImage (i : imageMeta) (image : Str) : Except Error Str :=
  match ParseNormalizedNamed image with
  | .error err => .error err
  | .ok ref =>
    let afterRepository : Except Error Named :=
      if i.Repository ≠ [] then
        let tagged := ref.asTagged
        let digested := ref.asDigested
        let name := imageName ref.Name
        match ParseNormalizedNamed (TrimSuffix i.Repository ['/'] ++ '/' :: name) with
        | .error err => .error err
        | .ok ref =>
          let withTag : Except Error Named :=
            match tagged with
            | some t => WithTag ref t
            | none => .ok ref
          match withTag with
          | .error err => .error err
          | .ok ref =>
            match digested with
            | some d => WithDigest ref d
            | none => .ok ref
      else .ok ref
    match afterRepository with
    | .error err => .error err
    | .ok ref =>
      let afterTag : Except Error Named :=
        if i.Tag ≠ [] then WithTag (TrimNamed ref) i.Tag else .ok ref
      match afterTag with
      | .error err => .error err
      | .ok ref => .ok ref.String

/-! ## The client -/

/-- The constant `imagesConfigKey`. -/
def imagesConfigKey : Str := "images".toList

/-- The constant `allImageConfig`. -/
def allImageConfig : Str := "all".toList

/-- The value `UnmarshalKey` leaves in `var meta map[string]imageMeta`: `none` is the
nil map (the key is absent), otherwise the entries of the map. -/
abbrev RawConfig := Option (List (Str × imageMeta))

/-- The `Reader` capability, as a test double: `answers n key` is what the call number
`n` of `UnmarshalKey(key, &meta)` does (fails with an error, or leaves a value in
`meta`), and `calls` counts the calls made so far. -/
structure Reader where
  answers : Nat → Str → Except Str RawConfig
  calls : Nat

/-- `Reader.UnmarshalKey`: the outcome of this call, and the reader afterwards. -/
def Reader.UnmarshalKey (r : Reader) (key : Str) : Except Str RawConfig × Reader :=
  (r.answers r.calls key, { r with calls := r.calls + 1 })

/-- The `imageMetaClient` struct; the cache maps a component to a possibly nil
`*imageMeta`. -/
structure imageMetaClient where
  reader : Reader
  imageMetaCache : List (Str × Option imageMeta)

/-- `newImageMetaClient`. -/
def newImageMetaClient (reader : Reader) : imageMetaClient :=
  { reader := reader, imageMetaCache := [] }

/-- `imageMetaClient.getImageMetaByComponent`: the returned pair `(*imageMeta, error)`
and the client afterwards. -/
def imageMetaClient.getImageMetaByComponent (p : imageMetaClient) (component : Str) :
    Except Error (Option imageMeta) × imageMetaClient :=
  match p.imageMetaCache.lookup component with
  | some im => (.ok im, p)
  | none =>
    match p.reader.UnmarshalKey imagesConfigKey with
    | (.error err, reader) => (.error (.ConfigUnreadable err), { p with reader := reader })
    | (.ok none, reader) =>
      (.ok none, { reader := reader, imageMetaCache := (component, none) :: p.imageMetaCache })
    | (.ok (some cfg), reader) =>
      let m : imageMeta := { Repository := [], Tag := [] }
      let m :=
        match cfg.lookup allImageConfig with
        | some allMeta => m.Union allMeta
        | none => m
      let m :=
        match cfg.lookup component with
        | some componentMeta => m.Union componentMeta
        | none => m
      (.ok (some m), { reader := reader, imageMetaCache := (component, some m) :: p.imageMetaCache })

/-- `imageMetaClient.AlterImage`: the returned pair `(string, error)` and the client
afterwards. -/
def imageMetaClient.AlterImage (p : imageMetaClient) (component image : Str) :
    Except Error Str × imageMetaClient :=
  match p.getImageMetaByComponent component with
  | (.error err, p1) => (.error err, p1)
  | (.ok none, p1) => (.ok image, p1)
  | (.ok (some m), p1) => (m.ApplyToImage image, p1)

/-- A call on the client: `getImageMetaByComponent(component)` or
`AlterImage(component, image)`. -/
inductive Call where
  | get (component : Str) : Call
  | alter (component image : Str) : Call

/-- The client after one call. -/
def imageMetaClient.call (p : imageMetaClient) : Call → imageMetaClient
  | .get component => (p.getImageMetaByComponent component).2
  | .alter component image => (p.AlterImage component image).2

/-- The client after a sequence of calls. -/
def imageMetaClient.calls (p : imageMetaClient) (cs : List Call) : imageMetaClient :=
  cs.foldl imageMetaClient.call p

/-- Every cached value is the no-override marker. -/
def cacheAllNil (p : imageMetaClient) : Prop :=
  ∀ k v, p.imageMetaCache.lookup k = some v → v = none

/-- The value a field has under a key of the raw configuration: empty when the key is
absent. -/
def fieldAt (cfg : List (Str × imageMeta)) (key : Str) (field : imageMeta → Str) : Str :=
  match cfg.lookup key with
  | some m => field m
  | none => []

/-- A reader that finds a configuration without any entry. -/
def emptyConfigReader : Reader := { answers := fun _ _ => .ok (some []), calls := 0 }

/-- A reader that finds no configuration at all. -/
def noConfigReader : Reader := { answers := fun _ _ => .ok none, calls := 0 }

/-- A reader that finds a wildcard entry and an entry for `capi`. -/
def sampleReader : Reader :=
  { answers := fun _ _ => .ok (some
      [("all".toList, { Repository := "myreg.io/myorg".toList, Tag := "v1".toList }),
       ("capi".toList, { Repository := [], Tag := "v2".toList })]),
    calls := 0 }

/-- The component a call is for. -/
def Call.component : Call → Str
  | .get component => component
  | .alter component _ => component

/-- The number of cache misses of a sequence of components, given the components that
are cached already: a component misses when it is met for the first time. -/
def misses (known : List Str) : List Str → Nat
  | [] => 0
  | c :: cs => if c ∈ known then misses known cs else misses (c :: known) cs + 1

/-- The rule the resolution algorithm gives for a component from what the reader left:
the no-override marker for a nil map, otherwise the empty rule merged with the entry of
`all`, if any, then with the entry of the component, if any. -/
def resolve (cfg : RawConfig) (component : Str) : Option imageMeta :=
  match cfg with
  | none => none
  | some entries =>
    let fromAll : imageMeta :=
      match entries.lookup allImageConfig with
      | some allMeta => (imageMeta.mk [] []).Union allMeta
      | none => imageMeta.mk [] []
    match entries.lookup component with
    | some componentMeta => some (fromAll.Union componentMeta)
    | none => some fromAll

/-- A reader that fails on its first call and finds a wildcard entry afterwards. -/
def flakyReader : Reader :=
  { answers := fun n _ =>
      if n = 0 then .error "unreadable".toList
      else .ok (some [("all".toList, { Repository := "myreg.io/myorg".toList, Tag := [] })]),
    calls := 0 }

/-- The reference with the given repository, optional tag and optional digest. -/
def mkRef (r : repository) : Option Str → Option Str → Named
  | none, none => .repository r
  | some t, none => .taggedReference r t
  | none, some d => .canonicalReference r d
  | some t, some d => .reference r t d

/-- The text a tag adds to the canonical string. -/
def tagPart : Option Str → Str
  | some t => ':' :: t
  | none => []

/-- The text a digest adds to the canonical string. -/
def digestPart : Option Str → Str
  | some d => '@' :: d
  | none => []

/-- The first segment `D` is one that `splitDockerDomain` takes as the registry host. -/
def hostLike (D : Str) : Prop :=
  (D.any fun c => c == '.' || c == ':') = true ∨ D = "localhost".toList

/-- The repository is the one of a normalized name `D/R`: the host `D` is explicit, the
remainder `R` is lower case and has no `:`, and `D/R` passes the name grammar and the
length limit. -/
def NormalRepo (repo : repository) : Prop :=
  ∃ D R, '/' ∉ D ∧ D ≠ legacyDefaultDomain ∧ hostLike D ∧ (D = defaultDomain → '/' ∈ R)
    ∧ ':' ∉ R ∧ ToLower R = R ∧ splitName (D ++ '/' :: R) = some repo
    ∧ (D ++ '/' :: R).length ≤ NameTotalLengthMax

/-- The reference is built from a normalized repository, a valid tag and a valid digest. -/
def Named.WellFormed (ref : Named) : Prop :=
  NormalRepo ref.repo
    ∧ (∀ t, ref.asTagged = some t → isTag t = true)
    ∧ (∀ d, ref.asDigested = some d → isDigest d = true ∧ digestValidate d = true)

/-! ## The examples of the specification -/

/-- Sixty-four hexadecimal digits. -/
def digestHex : Str := "0123456789abcdef0123456789abcdef0123456789abcdef0123456789abcdef".toList

/-- An image with a tag. -/
def imageTagged : Str := "gcr.io/proj/my-image:v1.2.3".toList

/-- An image with a digest. -/
def imageDigested : Str := "gcr.io/proj/my-image@sha256:".toList ++ digestHex

/-- A rule that overrides the repository. -/
def ruleRepository : imageMeta := { Repository := "myreg.io/myorg".toList, Tag := [] }

/-- A rule that overrides the tag. -/
def ruleTag : imageMeta := { Repository := [], Tag := "latest".toList }

/-- A rule that overrides both. -/
def ruleBoth : imageMeta := { Repository := "myreg.io/myorg".toList, Tag := "v2".toList }

end config

namespace config

/-! ## Facts about the string helpers -/

theorem cutFirst_eq_none {c : Char} {s : Str} : cutFirst c s = none ↔ c ∉ s := by
  induction s with
  | nil => simp [cutFirst]
  | cons x xs ih =>
    unfold cutFirst
    by_cases hx : x = c
    · simp [hx]
    · cases h : cutFirst c xs with
      | none => simp [hx, ih.mp h, Ne.symm hx]
      | some ab =>
        have : c ∈ xs := by
          by_contra hc
          rw [ih.mpr hc] at h
          cases h
        simp [hx, this]

theorem cutFirst_eq_some {c : Char} {s a b : Str} :
    cutFirst c s = some (a, b) ↔ s = a ++ c :: b ∧ c ∉ a := by
  induction s generalizing a b with
  | nil => simp [cutFirst]
  | cons x xs ih =>
    unfold cutFirst
    by_cases hx : x = c
    · subst hx
      constructor
      · intro h
        simp at h
        obtain ⟨rfl, rfl⟩ := h
        simp
      · rintro ⟨h, hn⟩
        cases a with
        | nil => simp at h; simp [h]
        | cons y ys =>
          simp at h
          simp [h.1] at hn
    · cases hxs : cutFirst c xs with
      | none =>
        simp only [hx, if_false]
        constructor
        · intro h; cases h
        · rintro ⟨h, hn⟩
          exfalso
          cases a with
          | nil => simp at h; exact hx h.1
          | cons y ys =>
            simp at h
            have : c ∈ xs := by rw [h.2]; simp
            exact (cutFirst_eq_none.mp hxs) this
      | some ab =>
        obtain ⟨a1, b1⟩ := ab
        have h1 := ih.mp hxs
        simp only [hx, if_false]
        constructor
        · intro h
          simp at h
          obtain ⟨rfl, rfl⟩ := h
          refine ⟨by simp [h1.1], ?_⟩
          simp [Ne.symm hx, h1.2]
        · rintro ⟨h, hn⟩
          cases a with
          | nil => simp at h; exact absurd h.1 hx
          | cons y ys =>
            simp at h
            simp at hn
            have h2 := ih.mpr ⟨h.2, hn.2⟩
            rw [hxs] at h2
            simp at h2
            simp [h.1, h2.1, h2.2]

theorem cutLast_eq_none {c : Char} {s : Str} : cutLast c s = none ↔ c ∉ s := by
  induction s with
  | nil => simp [cutLast]
  | cons x xs ih =>
    unfold cutLast
    cases h : cutLast c xs with
    | none =>
      have hc := ih.mp h
      by_cases hx : x = c
      · simp [hx]
      · simp [hx, hc, Ne.symm hx]
    | some ab =>
      have : c ∈ xs := by
        by_contra hc
        rw [ih.mpr hc] at h
        cases h
      simp [this]

theorem cutLast_eq_some {c : Char} {s a b : Str} :
    cutLast c s = some (a, b) ↔ s = a ++ c :: b ∧ c ∉ b := by
  induction s generalizing a b with
  | nil => simp [cutLast]
  | cons x xs ih =>
    unfold cutLast
    cases hxs : cutLast c xs with
    | none =>
      have hc := cutLast_eq_none.mp hxs
      by_cases hx : x = c
      · subst hx
        simp only [if_true]
        constructor
        · intro h
          simp at h
          obtain ⟨rfl, rfl⟩ := h
          simp [hc]
        · rintro ⟨h, hn⟩
          cases a with
          | nil => simp at h; simp [h]
          | cons y ys =>
            simp at h
            exact absurd (by rw [h.2]; simp) hc
      · simp only [hx, if_false]
        constructor
        · intro h; cases h
        · rintro ⟨h, hn⟩
          exfalso
          cases a with
          | nil => simp at h; exact hx h.1
          | cons y ys =>
            simp at h
            exact hc (by rw [h.2]; simp)
    | some ab =>
      obtain ⟨a1, b1⟩ := ab
      have h1 := ih.mp hxs
      constructor
      · intro h
        simp at h
        obtain ⟨rfl, rfl⟩ := h
        exact ⟨by simp [h1.1], h1.2⟩
      · rintro ⟨h, hn⟩
        cases a with
        | nil =>
          simp at h
          have : c ∈ xs := by rw [h1.1]; simp
          rw [h.2] at this
          exact absurd this hn
        | cons y ys =>
          simp at h
          have h2 := ih.mpr ⟨h.2, hn⟩
          rw [hxs] at h2
          simp at h2
          simp [h.1, h2.1, h2.2]

/-- The image name of `pre ++ "/" ++ leaf` is `leaf` when `leaf` has no `/`. -/
theorem imageName_append {pre leaf : Str} (h : '/' ∉ leaf) :
    imageName (pre ++ '/' :: leaf) = leaf := by
  have hc : cutLast '/' (pre ++ '/' :: leaf) = some (pre, leaf) := cutLast_eq_some.mpr ⟨rfl, h⟩
  unfold imageName LastIndex
  rw [hc]
  have h1 : ((pre.length : Int) ≠ -1) := by omega
  have h2 : ((pre.length : Int) + 1).toNat = pre.length + 1 := by omega
  simp only [h1, h2]
  simp only [ne_eq, not_false_eq_true, if_true]
  have h3 : List.drop (pre.length + 1) (pre ++ '/' :: leaf) = leaf := by
    rw [List.drop_append_eq_append_drop]
    simp
  rw [h3]
  unfold TrimPrefix
  cases leaf with
  | nil => simp
  | cons x xs =>
    have : x ≠ '/' := by
      intro hx
      apply h
      simp [hx]
    simp [List.isPrefixOf, Ne.symm this]

/-- A string without `/` is its own image name. -/
theorem imageName_of_not_mem {s : Str} (h : '/' ∉ s) : imageName s = s := by
  unfold imageName LastIndex
  rw [cutLast_eq_none.mpr h]
  simp

/-! ## Facts about the reference grammar -/

theorem pathStep_ne {st st1 : PathState} {c : Char} (h : pathStep st c = some st1) :
    c ≠ '@' ∧ c ≠ ':' := by
  constructor
  · rintro rfl
    cases st <;> simp [pathStep, isLowerAlnum, Char.isLower, Char.isDigit] at h
  · rintro rfl
    cases st <;> simp [pathStep, isLowerAlnum, Char.isLower, Char.isDigit] at h

theorem pathRun_ne {st : PathState} {s : Str} (h : pathRun st s = true) :
    ∀ c ∈ s, c ≠ '@' ∧ c ≠ ':' := by
  induction s generalizing st with
  | nil => simp
  | cons x xs ih =>
    unfold pathRun at h
    cases hst : pathStep st x with
    | none => simp [hst] at h
    | some st1 =>
      simp only [hst] at h
      intro c hc
      rcases List.mem_cons.mp hc with rfl | hc
      · exact pathStep_ne hst
      · exact ih h c hc

theorem domainStep_ne {st st1 : DomainState} {c : Char} (h : domainStep st c = some st1) :
    c ≠ '@' ∧ c ≠ '/' := by
  constructor
  · rintro rfl
    cases st <;> simp [domainStep, Char.isAlphanum, Char.isAlpha, Char.isUpper, Char.isLower,
      Char.isDigit] at h
  · rintro rfl
    cases st <;> simp [domainStep, Char.isAlphanum, Char.isAlpha, Char.isUpper, Char.isLower,
      Char.isDigit] at h

theorem domainRun_ne {st : DomainState} {s : Str} (h : domainRun st s = true) :
    ∀ c ∈ s, c ≠ '@' ∧ c ≠ '/' := by
  induction s generalizing st with
  | nil => simp
  | cons x xs ih =>
    unfold domainRun at h
    cases hst : domainStep st x with
    | none => simp [hst] at h
    | some st1 =>
      simp only [hst] at h
      intro c hc
      rcases List.mem_cons.mp hc with rfl | hc
      · exact domainStep_ne hst
      · exact ih h c hc

theorem isTagChar_ne {c : Char} (h : isTagChar c = true) : c ≠ '@' ∧ c ≠ '/' ∧ c ≠ ':' := by
  refine ⟨?_, ?_, ?_⟩ <;> rintro rfl <;> revert h <;> decide

theorem isTag_ne {t : Str} (h : isTag t = true) : ∀ c ∈ t, c ≠ '@' ∧ c ≠ '/' ∧ c ≠ ':' := by
  cases t with
  | nil => simp
  | cons x xs =>
    simp only [isTag, Bool.and_eq_true, List.all_eq_true, decide_eq_true_eq] at h
    intro c hc
    rcases List.mem_cons.mp hc with rfl | hc
    · apply isTagChar_ne
      simp [isTagChar, h.1.1]
    · exact isTagChar_ne (h.1.2 c hc)

theorem isTag_ne_nil {t : Str} (h : isTag t = true) : t ≠ [] := by
  rintro rfl
  simp [isTag] at h

theorem algorithmRun_ne {b : Bool} {s : Str} (h : algorithmRun b s = true) :
    ∀ c ∈ s, c ≠ '@' ∧ c ≠ '/' := by
  induction s generalizing b with
  | nil => simp
  | cons x xs ih =>
    intro c hc
    rcases List.mem_cons.mp hc with rfl | hc
    · constructor <;> rintro rfl <;> cases b <;> revert h <;> simp [algorithmRun]
    · cases b
      · unfold algorithmRun at h
        split at h
        · exact ih h c hc
        · cases h
      · unfold algorithmRun at h
        split at h
        · exact ih h c hc
        · split at h
          · exact ih h c hc
          · cases h

theorem isXDigit_ne {c : Char} (h : isXDigit c = true) : c ≠ '@' ∧ c ≠ '/' := by
  constructor <;> rintro rfl <;> revert h <;> decide

theorem isDigest_ne {d : Str} (h : isDigest d = true) : ∀ c ∈ d, c ≠ '@' ∧ c ≠ '/' := by
  unfold isDigest at h
  cases hc : cutFirst ':' d with
  | none => simp [hc] at h
  | some ab =>
    obtain ⟨alg, hex⟩ := ab
    simp only [hc, Bool.and_eq_true, List.all_eq_true, decide_eq_true_eq] at h
    obtain ⟨hd, -⟩ := cutFirst_eq_some.mp hc
    subst hd
    intro c hmem
    rcases List.mem_append.mp hmem with hmem | hmem
    · exact algorithmRun_ne h.1.1 c hmem
    · rcases List.mem_cons.mp hmem with rfl | hmem
      · constructor <;> decide
      · exact isXDigit_ne (h.1.2 c hmem)

theorem isDigest_ne_nil {d : Str} (h : isDigest d = true) : d ≠ [] := by
  rintro rfl
  simp [isDigest, cutFirst] at h

theorem isDomain_ne_nil {d : Str} (h : isDomain d = true) : d ≠ [] := by
  rintro rfl
  simp [isDomain, domainRun] at h

/-- What a successful `splitName` returns: host and path recompose the name, the path
obeys the path grammar and the host, when present, the host grammar. -/
theorem splitName_some {n : Str} {r : repository} (h : splitName n = some r) :
    r.Name = n ∧ isPath r.path = true ∧ (r.domain = [] ∨ isDomain r.domain = true) := by
  unfold splitName at h
  cases hc : cutFirst '/' n with
  | none =>
    simp only [hc] at h
    split at h
    · cases h
      simp_all [repository.Name]
    · cases h
  | some ab =>
    obtain ⟨d, p⟩ := ab
    simp only [hc] at h
    split at h
    · rename_i hdp
      cases h
      simp only [Bool.and_eq_true] at hdp
      have hne := isDomain_ne_nil hdp.1
      refine ⟨?_, hdp.2, Or.inr hdp.1⟩
      simp [repository.Name, hne, (cutFirst_eq_some.mp hc).1]
    · split at h
      · cases h
        simp_all [repository.Name]
      · cases h

/-- Neither `@` occurs in the name of a repository returned by `splitName`. -/
theorem splitName_name_ne {n : Str} {r : repository} (h : splitName n = some r) :
    '@' ∉ r.Name := by
  obtain ⟨-, hp, hd⟩ := splitName_some h
  unfold repository.Name
  split
  · intro hm
    exact (pathRun_ne hp _ hm).1 rfl
  · rcases hd with hd | hd
    · contradiction
    · intro hm
      rcases List.mem_append.mp hm with hm | hm
      · exact (domainRun_ne hd _ hm).1 rfl
      · rcases List.mem_cons.mp hm with hm | hm
        · revert hm; decide
        · exact (pathRun_ne hp _ hm).1 rfl

/-- What a successful `Parse` went through. -/
theorem Parse_ok {s : Str} {ref : Named} (h : Parse s = .ok ref) :
    ∃ repo, splitName (splitTag (splitDigest s).1).1 = some repo
      ∧ (∀ t, (splitTag (splitDigest s).1).2 = some t → isTag t = true)
      ∧ (∀ d, (splitDigest s).2 = some d → isDigest d = true ∧ digestValidate d = true)
      ∧ (splitTag (splitDigest s).1).1.length ≤ NameTotalLengthMax
      ∧ ref = getBestReferenceType repo ((splitTag (splitDigest s).1).2.getD [])
          ((splitDigest s).2.getD []) := by
  unfold Parse at h
  simp only at h
  cases hn : splitName (splitTag (splitDigest s).1).1 with
  | none => simp [hn] at h
  | some repo =>
    simp only [hn] at h
    refine ⟨repo, rfl, ?_⟩
    split at h
    · cases h
    · rename_i h1
      split at h
      · cases h
      · rename_i h2
        split at h
        · cases h
        · rename_i h3
          split at h
          · cases h
          · rename_i h4
            injection h with h
            refine ⟨?_, ?_, by omega, h.symm⟩
            · intro t ht
              simpa [ht] using h1
            · intro d hd
              constructor
              · simpa [hd] using h2
              · simpa [hd] using h4

/-- Two ways of cutting the same string: when the character `c` of the first cut does
not occur in `d :: l`, the tail of the second cut, then `d` occurs after `c`. -/
theorem mem_of_append_eq {a b y l : Str} {c d : Char} (h : a ++ c :: b = y ++ d :: l)
    (hc : c ∉ d :: l) : ∃ z, b = z ++ d :: l := by
  induction a generalizing y with
  | nil =>
    cases y with
    | nil =>
      simp at h
      exact absurd (by simp [h.1]) hc
    | cons u us =>
      simp at h
      exact ⟨us, h.2⟩
  | cons x xs ih =>
    cases y with
    | nil =>
      simp at h
      exfalso
      apply hc
      rw [← h.2]
      simp
    | cons u us =>
      simp at h
      exact ih h.2

/-- A string that ends in `/leaf`, where `leaf` has no `:` and no `@`, and that
`Parse` accepts, is parsed as a bare repository: it carries no tag and no digest. -/
theorem Parse_bare {y leaf : Str} {ref : Named} (hcolon : ':' ∉ leaf) (hat : '@' ∉ leaf)
    (h : Parse (y ++ '/' :: leaf) = .ok ref) :
    ref = .repository ref.repo ∧ splitName (y ++ '/' :: leaf) = some ref.repo := by
  obtain ⟨repo, hname, -, hdig, -, href⟩ := Parse_ok h
  have hd : splitDigest (y ++ '/' :: leaf) = (y ++ '/' :: leaf, none) := by
    unfold splitDigest
    cases hc : cutFirst '@' (y ++ '/' :: leaf) with
    | none => rfl
    | some ab =>
      exfalso
      obtain ⟨a, d⟩ := ab
      have hsd : (splitDigest (y ++ '/' :: leaf)).2 = some d := by simp [splitDigest, hc]
      obtain ⟨hdg, -⟩ := hdig d hsd
      obtain ⟨z, hz⟩ := mem_of_append_eq (cutFirst_eq_some.mp hc).1.symm
        (by simp only [List.mem_cons, not_or]; exact ⟨by decide, hat⟩)
      exact (isDigest_ne hdg '/' (by simp [hz])).2 rfl
  have ht : splitTag (y ++ '/' :: leaf) = (y ++ '/' :: leaf, none) := by
    unfold splitTag
    cases hc : cutLast ':' (y ++ '/' :: leaf) with
    | none => rfl
    | some ab =>
      obtain ⟨n, t⟩ := ab
      obtain ⟨z, hz⟩ := mem_of_append_eq (cutLast_eq_some.mp hc).1.symm
        (by simp only [List.mem_cons, not_or]; exact ⟨by decide, hcolon⟩)
      have : '/' ∈ t := by simp [hz]
      simp [this]
  rw [hd] at hname href
  simp only [ht] at hname href
  simp only [Option.getD, getBestReferenceType, if_true] at href
  subst href
  exact ⟨rfl, hname⟩

/-- The shape of the result of `splitDockerDomain`: the remainder is the whole name or
the text after its first `/`, possibly put in the default namespace. -/
theorem splitDockerDomain_eq (name : Str) :
    ∃ D R, splitDockerDomain name
        = (D, if D = defaultDomain ∧ '/' ∉ R then officialRepoName ++ '/' :: R else R)
      ∧ (R = name ∨ ∃ a, cutFirst '/' name = some (a, R)) := by
  unfold splitDockerDomain
  cases hc : cutFirst '/' name with
  | none => exact ⟨_, name, rfl, Or.inl rfl⟩
  | some ab =>
    obtain ⟨a, b⟩ := ab
    simp only
    split
    · exact ⟨_, name, rfl, Or.inl rfl⟩
    · exact ⟨_, b, rfl, Or.inr ⟨a, rfl⟩⟩

/-- The string `splitDockerDomain` hands to `Parse` still ends in `/leaf`. -/
theorem splitDockerDomain_suffix (x leaf : Str) :
    ∃ y, (splitDockerDomain (x ++ '/' :: leaf)).1 ++ '/' :: (splitDockerDomain (x ++ '/' :: leaf)).2
      = y ++ '/' :: leaf := by
  obtain ⟨D, R, hDR, hR⟩ := splitDockerDomain_eq (x ++ '/' :: leaf)
  have hR1 : ∃ y, '/' :: R = y ++ '/' :: leaf := by
    rcases hR with rfl | ⟨a, hc⟩
    · exact ⟨'/' :: x, by simp⟩
    · obtain ⟨hab, ha⟩ := cutFirst_eq_some.mp hc
      clear hc hDR
      induction a generalizing x with
      | nil =>
        cases x with
        | nil => simp at hab; exact ⟨[], by simp [hab]⟩
        | cons u us => simp at hab; exact ⟨'/' :: us, by simp [hab.2]⟩
      | cons v vs ih =>
        cases x with
        | nil =>
          simp at hab
          simp at ha
          exact absurd hab.1 ha.1
        | cons u us =>
          simp at hab
          simp at ha
          exact ih us hab.2 ha.2
  obtain ⟨y, hy⟩ := hR1
  rw [hDR]
  simp only
  split
  · refine ⟨D ++ '/' :: officialRepoName ++ y, ?_⟩
    simp [hy]
  · refine ⟨D ++ y, ?_⟩
    simp [hy]

/-- What a successful `ParseNormalizedNamed` went through. -/
theorem ParseNormalizedNamed_ok {s : Str} {ref : Named} (h : ParseNormalizedNamed s = .ok ref) :
    Parse ((splitDockerDomain s).1 ++ '/' :: (splitDockerDomain s).2) = .ok ref := by
  unfold ParseNormalizedNamed at h
  split at h
  · cases h
  · simp only at h
    split at h
    · cases h
    · exact h

/-- A string that ends in `/leaf`, where `leaf` has no `:` and no `@`, and that
`ParseNormalizedNamed` accepts, yields a bare repository. -/
theorem ParseNormalizedNamed_bare {x leaf : Str} {ref : Named}
    (hcolon : ':' ∉ leaf) (hat : '@' ∉ leaf)
    (h : ParseNormalizedNamed (x ++ '/' :: leaf) = .ok ref) : ref = .repository ref.repo := by
  obtain ⟨y, hy⟩ := splitDockerDomain_suffix x leaf
  have hp := ParseNormalizedNamed_ok h
  rw [hy] at hp
  exact (Parse_bare hcolon hat hp).1

theorem getBestReferenceType_repo (r : repository) (t d : Str) :
    (getBestReferenceType r t d).repo = r := by
  unfold getBestReferenceType
  split <;> split <;> rfl

/-- When the same string is cut at `c` in two places and `c` does not occur after the
second one, the text after the second cut is part of the text after the first. -/
theorem subset_of_append_eq {a p pre leaf : Str} {c : Char} (h : a ++ c :: p = pre ++ c :: leaf)
    (hc : c ∉ leaf) : ∀ ch ∈ leaf, ch ∈ p := by
  induction a generalizing pre with
  | nil =>
    cases pre with
    | nil => simp at h; simp [h]
    | cons u us =>
      simp at h
      intro ch hch
      simp [h.2, hch]
  | cons x xs ih =>
    cases pre with
    | nil =>
      simp at h
      exfalso
      apply hc
      rw [← h.2]
      simp
    | cons u us =>
      simp at h
      exact ih h.2

/-- The name of a reference returned by `ParseNormalizedNamed` has a `/`; the text after
the last one has no `:` and no `@`, and no `@` occurs in the name at all. -/
theorem ParseNormalizedNamed_name {s : Str} {ref : Named} (h : ParseNormalizedNamed s = .ok ref) :
    '@' ∉ ref.Name ∧ ∃ pre leaf, ref.Name = pre ++ '/' :: leaf ∧ '/' ∉ leaf ∧ ':' ∉ leaf
      ∧ '@' ∉ leaf := by
  have hp := ParseNormalizedNamed_ok h
  generalize (splitDockerDomain s).1 = D at hp
  generalize (splitDockerDomain s).2 = R at hp
  obtain ⟨repo, hname, htag, hdig, -, href⟩ := Parse_ok hp
  have hrepo : ref.repo = repo := by rw [href]; exact getBestReferenceType_repo _ _ _
  have hat : '@' ∉ ref.Name := by
    unfold Named.Name
    rw [hrepo]
    exact splitName_name_ne hname
  refine ⟨hat, ?_⟩
  obtain ⟨hN, hpath, hdom⟩ := splitName_some hname
  -- the `/` between host and remainder ends up in the name
  have h1 : '/' ∈ (splitDigest (D ++ '/' :: R)).1 := by
    unfold splitDigest
    cases hc : cutFirst '@' (D ++ '/' :: R) with
    | none => simp
    | some ab =>
      obtain ⟨a, d⟩ := ab
      have hd := (hdig d (by simp [splitDigest, hc])).1
      have hs := (cutFirst_eq_some.mp hc).1
      have hm : '/' ∈ a ++ '@' :: d := by rw [← hs]; simp
      rcases List.mem_append.mp hm with hm | hm
      · exact hm
      · rcases List.mem_cons.mp hm with hm | hm
        · exact absurd hm (by decide)
        · exact absurd rfl (isDigest_ne hd _ hm).2
  have h2 : '/' ∈ (splitTag (splitDigest (D ++ '/' :: R)).1).1 := by
    generalize (splitDigest (D ++ '/' :: R)).1 = rest at h1
    unfold splitTag
    cases hc : cutLast ':' rest with
    | none => exact h1
    | some ab =>
      obtain ⟨n, t⟩ := ab
      simp only
      split
      · exact h1
      · rename_i hnt
        have hs := (cutLast_eq_some.mp hc).1
        rw [hs] at h1
        rcases List.mem_append.mp h1 with hm | hm
        · exact hm
        · rcases List.mem_cons.mp hm with hm | hm
          · exact absurd hm (by decide)
          · exact absurd hm hnt
  rw [← hN] at h2
  have hN1 : ref.Name = repo.Name := by unfold Named.Name; rw [hrepo]
  cases hc : cutLast '/' repo.Name with
  | none => exact absurd h2 (cutLast_eq_none.mp hc)
  | some ab =>
    obtain ⟨pre, leaf⟩ := ab
    obtain ⟨hs, hl⟩ := cutLast_eq_some.mp hc
    refine ⟨pre, leaf, by rw [hN1, hs], hl, ?_, ?_⟩
    · -- the leaf lies inside the path, which has no `:`
      have hsub : ∀ ch ∈ leaf, ch ∈ repo.path := by
        unfold repository.Name at hs
        split at hs
        · intro ch hch
          rw [hs]
          simp [hch]
        · exact subset_of_append_eq hs hl
      intro hm
      exact (pathRun_ne hpath _ (hsub _ hm)).2 rfl
    · intro hm
      apply hat
      rw [hN1, hs]
      simp [hm]

/-! ## Anatomy of `ApplyToImage` -/

theorem WithTag_ok {n x : Named} {t : Str} (h : WithTag n t = .ok x) :
    isTag t = true ∧ x.repo = n.repo ∧ x.asTagged = some t ∧ x.asDigested = n.asDigested := by
  unfold WithTag at h
  split at h
  · cases h
  · rename_i ht
    simp only [Bool.not_eq_true, Bool.not_eq_false_eq_eq_true] at ht
    refine ⟨by simpa using ht, ?_⟩
    cases n <;> simp at h <;> subst h <;> simp [Named.repo, Named.asTagged, Named.asDigested]

theorem WithDigest_ok {n x : Named} {d : Str} (h : WithDigest n d = .ok x) :
    isDigest d = true ∧ x.repo = n.repo ∧ x.asTagged = n.asTagged ∧ x.asDigested = some d := by
  unfold WithDigest at h
  split at h
  · cases h
  · rename_i hd
    refine ⟨by simpa using hd, ?_⟩
    cases n <;> simp at h <;> subst h <;> simp [Named.repo, Named.asTagged, Named.asDigested]

/-- The canonical string of a reference, from its parts. -/
theorem Named.String_eq (n : Named) :
    n.String = n.Name
      ++ (match n.asTagged with | some t => ':' :: t | none => [])
      ++ (match n.asDigested with | some d => '@' :: d | none => []) := by
  cases n <;> simp [Named.String, Named.Name, Named.repo, Named.asTagged, Named.asDigested]

/-- What a successful `ApplyToImage` went through: the parsed input `ref`, the reference
`cur` after the repository step and the output after the tag step. -/
theorem ApplyToImage_ok {i : imageMeta} {image out : Str} (h : i.ApplyToImage image = .ok out) :
    ∃ ref cur, ParseNormalizedNamed image = .ok ref
      ∧ (i.Repository = [] → cur = ref)
      ∧ (i.Repository ≠ [] → ∃ pre leaf new, ref.Name = pre ++ '/' :: leaf ∧ '/' ∉ leaf
          ∧ ParseNormalizedNamed (TrimSuffix i.Repository ['/'] ++ '/' :: leaf) = .ok new
          ∧ new = .repository new.repo ∧ cur.repo = new.repo
          ∧ cur.asTagged = ref.asTagged ∧ cur.asDigested = ref.asDigested)
      ∧ (i.Tag = [] → out = cur.String)
      ∧ (i.Tag ≠ [] → isTag i.Tag = true ∧ out = cur.Name ++ ':' :: i.Tag) := by
  unfold imageMeta.ApplyToImage at h
  cases hp : ParseNormalizedNamed image with
  | error e => simp [hp] at h
  | ok ref =>
    simp only [hp] at h
    split at h
    · cases h
    · rename_i cur hcur
      refine ⟨ref, cur, rfl, ?_, ?_, ?_, ?_⟩
      · intro hR
        simp only [hR, ne_eq, not_true_eq_false, if_false] at hcur
        injection hcur with hcur
        exact hcur.symm
      · intro hR
        obtain ⟨-, pre, leaf, hname, hslash, hcolon, hat⟩ := ParseNormalizedNamed_name hp
        simp only [hR, ne_eq, not_false_eq_true, if_true, hname, imageName_append hslash] at hcur
        refine ⟨pre, leaf, ?_⟩
        split at hcur
        · cases hcur
        · rename_i new hnew
          have hbare := ParseNormalizedNamed_bare hcolon hat hnew
          refine ⟨new, hname, hslash, hnew, hbare, ?_⟩
          split at hcur
          · cases hcur
          · rename_i mid hmid
            have hmid1 : mid.repo = new.repo ∧ mid.asTagged = ref.asTagged
                ∧ mid.asDigested = none := by
              cases ht : ref.asTagged with
              | none =>
                simp only [ht] at hmid
                injection hmid with hmid
                subst hmid
                rw [hbare]
                simp [Named.repo, Named.asTagged, Named.asDigested]
              | some t =>
                simp only [ht] at hmid
                obtain ⟨-, h1, h2, h3⟩ := WithTag_ok hmid
                refine ⟨h1, h2, ?_⟩
                rw [h3, hbare]
                rfl
            cases hd : ref.asDigested with
            | none =>
              simp only [hd] at hcur
              injection hcur with hcur
              subst hcur
              exact hmid1
            | some d =>
              simp only [hd] at hcur
              obtain ⟨-, h1, h2, h3⟩ := WithDigest_ok hcur
              exact ⟨h1.trans hmid1.1, h2.trans hmid1.2.1, h3⟩
      · intro hT
        simp only [hT, ne_eq, not_true_eq_false, if_false] at h
        injection h with h
        exact h.symm
      · intro hT
        simp only [hT, ne_eq, not_false_eq_true, if_true] at h
        split at h
        · cases h
        · rename_i fin hfin
          injection h with h
          obtain ⟨h0, h1, h2, h3⟩ := WithTag_ok hfin
          refine ⟨h0, ?_⟩
          rw [← h, Named.String_eq, h2]
          have h4 : fin.asDigested = none := by rw [h3]; rfl
          have h5 : fin.Name = cur.Name := by
            unfold Named.Name
            rw [h1]
            rfl
          simp [h4, h5]

/-! ## The reference rewriter -/

/-- C1: under a repository override without tag override, a successful `ApplyToImage`
returns the canonical string of the reference parsed from the repository (one trailing
`/` trimmed), `/` and the leaf name (the text after the last `/` of the normalized input
name), followed by `:` and the input tag when the input has one, then by `@` and the
input digest when the input has one. -/
theorem ApplyToImage_repository_keeps_tag_and_digest (i : imageMeta) (image out : Str)
    (hR : i.Repository ≠ []) (hT : i.Tag = []) (h : i.ApplyToImage image = .ok out) :
    ∃ ref pre leaf new, ParseNormalizedNamed image = .ok ref
      ∧ ref.Name = pre ++ '/' :: leaf ∧ '/' ∉ leaf
      ∧ ParseNormalizedNamed (TrimSuffix i.Repository ['/'] ++ '/' :: leaf) = .ok new
      ∧ out = new.String
          ++ (match ref.asTagged with | some t => ':' :: t | none => [])
          ++ (match ref.asDigested with | some d => '@' :: d | none => []) := by
  obtain ⟨ref, cur, hp, -, hrepo, hout, -⟩ := ApplyToImage_ok h
  obtain ⟨pre, leaf, new, hname, hslash, hnew, hbare, hcr, hct, hcd⟩ := hrepo hR
  refine ⟨ref, pre, leaf, new, hp, hname, hslash, hnew, ?_⟩
  rw [hout hT, Named.String_eq cur, hct, hcd]
  have h1 : cur.Name = new.String := by
    rw [hbare]
    simp [Named.Name, Named.String, hcr]
  rw [h1]

/-- C1, witnesses: the two examples of the specification satisfy the hypotheses of
`ApplyToImage_repository_keeps_tag_and_digest`, which applies to them. -/
theorem ApplyToImage_repository_keeps_tag_and_digest_witness :
    (ruleRepository.ApplyToImage imageTagged = .ok "myreg.io/myorg/my-image:v1.2.3".toList
      ∧ ∃ ref pre leaf new, ParseNormalizedNamed imageTagged = .ok ref
          ∧ ref.Name = pre ++ '/' :: leaf ∧ '/' ∉ leaf
          ∧ ParseNormalizedNamed (TrimSuffix ruleRepository.Repository ['/'] ++ '/' :: leaf)
              = .ok new
          ∧ "myreg.io/myorg/my-image:v1.2.3".toList = new.String
              ++ (match ref.asTagged with | some t => ':' :: t | none => [])
              ++ (match ref.asDigested with | some d => '@' :: d | none => []))
    ∧ (ruleRepository.ApplyToImage imageDigested
          = .ok ("myreg.io/myorg/my-image@sha256:".toList ++ digestHex)
      ∧ ∃ ref pre leaf new, ParseNormalizedNamed imageDigested = .ok ref
          ∧ ref.Name = pre ++ '/' :: leaf ∧ '/' ∉ leaf
          ∧ ParseNormalizedNamed (TrimSuffix ruleRepository.Repository ['/'] ++ '/' :: leaf)
              = .ok new
          ∧ "myreg.io/myorg/my-image@sha256:".toList ++ digestHex = new.String
              ++ (match ref.asTagged with | some t => ':' :: t | none => [])
              ++ (match ref.asDigested with | some d => '@' :: d | none => [])) :=
  ⟨⟨by decide,
    ApplyToImage_repository_keeps_tag_and_digest ruleRepository imageTagged
      "myreg.io/myorg/my-image:v1.2.3".toList (by decide) rfl (by decide)⟩,
   ⟨by decide,
    ApplyToImage_repository_keeps_tag_and_digest ruleRepository imageDigested
      ("myreg.io/myorg/my-image@sha256:".toList ++ digestHex) (by decide) rfl (by decide)⟩⟩

/-- C2: under a tag override, a successful `ApplyToImage` returns the name of the current
reference (the normalized input name, or the relocated name when a repository override
also ran), `:` and the override tag, and nothing else; the output has no `@`. -/
theorem ApplyToImage_tag_drops_tag_and_digest (i : imageMeta) (image out : Str)
    (hT : i.Tag ≠ []) (h : i.ApplyToImage image = .ok out) :
    ∃ ref name, ParseNormalizedNamed image = .ok ref
      ∧ (i.Repository = [] → name = ref.Name)
      ∧ (i.Repository ≠ [] → ∃ pre leaf new, ref.Name = pre ++ '/' :: leaf ∧ '/' ∉ leaf
          ∧ ParseNormalizedNamed (TrimSuffix i.Repository ['/'] ++ '/' :: leaf) = .ok new
          ∧ name = new.Name)
      ∧ out = name ++ ':' :: i.Tag ∧ '@' ∉ out := by
  obtain ⟨ref, cur, hp, hnorepo, hrepo, -, hout⟩ := ApplyToImage_ok h
  obtain ⟨htag, hout⟩ := hout hT
  have hat : '@' ∉ cur.Name := by
    by_cases hR : i.Repository = []
    · rw [hnorepo hR]
      exact (ParseNormalizedNamed_name hp).1
    · obtain ⟨pre, leaf, new, -, -, hnew, -, hcr, -, -⟩ := hrepo hR
      have : cur.Name = new.Name := by unfold Named.Name; rw [hcr]
      rw [this]
      exact (ParseNormalizedNamed_name hnew).1
  refine ⟨ref, cur.Name, hp, ?_, ?_, hout, ?_⟩
  · intro hR
    rw [hnorepo hR]
  · intro hR
    obtain ⟨pre, leaf, new, hname, hslash, hnew, -, hcr, -, -⟩ := hrepo hR
    exact ⟨pre, leaf, new, hname, hslash, hnew, by unfold Named.Name; rw [hcr]⟩
  · rw [hout]
    intro hm
    rcases List.mem_append.mp hm with hm | hm
    · exact hat hm
    · rcases List.mem_cons.mp hm with hm | hm
      · exact absurd hm (by decide)
      · exact (isTag_ne htag _ hm).1 rfl

/-- C2, witness: the tag override `latest` on a digested image. -/
theorem ApplyToImage_tag_drops_tag_and_digest_witness :
    ruleTag.ApplyToImage imageDigested = .ok "gcr.io/proj/my-image:latest".toList
    ∧ ∃ ref name, ParseNormalizedNamed imageDigested = .ok ref
        ∧ (ruleTag.Repository = [] → name = ref.Name)
        ∧ (ruleTag.Repository ≠ [] → ∃ pre leaf new, ref.Name = pre ++ '/' :: leaf ∧ '/' ∉ leaf
            ∧ ParseNormalizedNamed (TrimSuffix ruleTag.Repository ['/'] ++ '/' :: leaf) = .ok new
            ∧ name = new.Name)
        ∧ "gcr.io/proj/my-image:latest".toList = name ++ ':' :: ruleTag.Tag
        ∧ '@' ∉ "gcr.io/proj/my-image:latest".toList :=
  ⟨by decide,
   ApplyToImage_tag_drops_tag_and_digest ruleTag imageDigested
     "gcr.io/proj/my-image:latest".toList (by decide) (by decide)⟩

/-- C3: under a repository and a tag override, a successful `ApplyToImage` returns the
name of the reference parsed from the repository (one trailing `/` trimmed), `/` and the
leaf name, then `:` and the override tag.  That reference is a bare repository (its
canonical string is its name), and the output has no `@`: the tag and the digest of the
input are gone. -/
theorem ApplyToImage_repository_and_tag (i : imageMeta) (image out : Str)
    (hR : i.Repository ≠ []) (hT : i.Tag ≠ []) (h : i.ApplyToImage image = .ok out) :
    ∃ ref pre leaf new, ParseNormalizedNamed image = .ok ref
      ∧ ref.Name = pre ++ '/' :: leaf ∧ '/' ∉ leaf
      ∧ ParseNormalizedNamed (TrimSuffix i.Repository ['/'] ++ '/' :: leaf) = .ok new
      ∧ new.String = new.Name
      ∧ out = new.Name ++ ':' :: i.Tag ∧ '@' ∉ out := by
  obtain ⟨ref, cur, hp, -, hrepo, -, hout⟩ := ApplyToImage_ok h
  obtain ⟨htag, hout⟩ := hout hT
  obtain ⟨pre, leaf, new, hname, hslash, hnew, hbare, hcr, -, -⟩ := hrepo hR
  have hcn : cur.Name = new.Name := by unfold Named.Name; rw [hcr]
  refine ⟨ref, pre, leaf, new, hp, hname, hslash, hnew, ?_, by rw [hout, hcn], ?_⟩
  · rw [hbare]
    rfl
  · rw [hout, hcn]
    intro hm
    rcases List.mem_append.mp hm with hm | hm
    · exact (ParseNormalizedNamed_name hnew).1 hm
    · rcases List.mem_cons.mp hm with hm | hm
      · exact absurd hm (by decide)
      · exact (isTag_ne htag _ hm).1 rfl

/-- C3, witness: repository `myreg.io/myorg` and tag `v2` on `gcr.io/proj/my-image:v1`. -/
theorem ApplyToImage_repository_and_tag_witness :
    ruleBoth.ApplyToImage "gcr.io/proj/my-image:v1".toList
      = .ok "myreg.io/myorg/my-image:v2".toList
    ∧ ∃ ref pre leaf new, ParseNormalizedNamed "gcr.io/proj/my-image:v1".toList = .ok ref
        ∧ ref.Name = pre ++ '/' :: leaf ∧ '/' ∉ leaf
        ∧ ParseNormalizedNamed (TrimSuffix ruleBoth.Repository ['/'] ++ '/' :: leaf) = .ok new
        ∧ new.String = new.Name
        ∧ "myreg.io/myorg/my-image:v2".toList = new.Name ++ ':' :: ruleBoth.Tag
        ∧ '@' ∉ "myreg.io/myorg/my-image:v2".toList :=
  ⟨by decide,
   ApplyToImage_repository_and_tag ruleBoth "gcr.io/proj/my-image:v1".toList
     "myreg.io/myorg/my-image:v2".toList (by decide) (by decide) (by decide)⟩

/-- C4: under a repository override the image name taken from the input is the text after
the last `/` of its normalized name, and two valid images whose normalized names end in
the same final segment and that carry the same tag and the same digest get the same
result from `ApplyToImage`. -/
theorem ApplyToImage_depends_on_leaf (i : imageMeta) (image1 image2 : Str) (ref1 ref2 : Named)
    (pre1 pre2 leaf : Str) (hR : i.Repository ≠ [])
    (h1 : ParseNormalizedNamed image1 = .ok ref1) (h2 : ParseNormalizedNamed image2 = .ok ref2)
    (hn1 : ref1.Name = pre1 ++ '/' :: leaf) (hn2 : ref2.Name = pre2 ++ '/' :: leaf)
    (hleaf : '/' ∉ leaf)
    (htag : ref1.asTagged = ref2.asTagged) (hdig : ref1.asDigested = ref2.asDigested) :
    imageName ref1.Name = leaf ∧ imageName ref2.Name = leaf
      ∧ i.ApplyToImage image1 = i.ApplyToImage image2 := by
  refine ⟨by rw [hn1]; exact imageName_append hleaf, by rw [hn2]; exact imageName_append hleaf, ?_⟩
  unfold imageMeta.ApplyToImage
  simp only [h1, h2, hR, ne_eq, not_false_eq_true, if_true, hn1, hn2, imageName_append hleaf,
    htag, hdig]

/-- C4, witness: `gcr.io/proj/team/my-image` and `gcr.io/my-image` share the leaf
`my-image` and both become `myreg.io/myorg/my-image`. -/
theorem ApplyToImage_depends_on_leaf_witness :
    ruleRepository.ApplyToImage "gcr.io/proj/team/my-image".toList
      = .ok "myreg.io/myorg/my-image".toList
    ∧ imageName "gcr.io/proj/team/my-image".toList = "my-image".toList
    ∧ imageName "gcr.io/my-image".toList = "my-image".toList
    ∧ ruleRepository.ApplyToImage "gcr.io/proj/team/my-image".toList
        = ruleRepository.ApplyToImage "gcr.io/my-image".toList :=
  ⟨by decide,
   ApplyToImage_depends_on_leaf ruleRepository "gcr.io/proj/team/my-image".toList
     "gcr.io/my-image".toList
     (.repository ⟨"gcr.io".toList, "proj/team/my-image".toList⟩)
     (.repository ⟨"gcr.io".toList, "my-image".toList⟩)
     "gcr.io/proj/team".toList "gcr.io".toList "my-image".toList
     (by decide) (by decide) (by decide) (by decide) (by decide) (by decide) (by decide)
     (by decide)⟩

/-! ## The override store -/

theorem Union_Repository (A B : imageMeta) :
    (A.Union B).Repository = if B.Repository = [] then A.Repository else B.Repository := by
  unfold imageMeta.Union
  by_cases h1 : B.Repository = [] <;> by_cases h2 : B.Tag = [] <;> simp [h1, h2]

theorem Union_Tag (A B : imageMeta) :
    (A.Union B).Tag = if B.Tag = [] then A.Tag else B.Tag := by
  unfold imageMeta.Union
  by_cases h1 : B.Repository = [] <;> by_cases h2 : B.Tag = [] <;> simp [h1, h2]

/-- C5: on a cache miss with a non-nil raw configuration, `getImageMetaByComponent`
returns the empty rule merged with the wildcard entry, if any, then with the entry of the
component, if any; each field is the one of the component entry when that sets it,
otherwise the one of the wildcard entry, otherwise empty. -/
theorem getImageMetaByComponent_union (p : imageMetaClient) (component : Str)
    (cfg : List (Str × imageMeta))
    (hmiss : p.imageMetaCache.lookup component = none)
    (hread : p.reader.answers p.reader.calls imagesConfigKey = .ok (some cfg)) :
    ∃ m, (p.getImageMetaByComponent component).1 = .ok (some m)
      ∧ m = (match cfg.lookup component with
              | some componentMeta => fun (x : imageMeta) => x.Union componentMeta
              | none => fun x => x)
            (match cfg.lookup allImageConfig with
              | some allMeta => (imageMeta.mk [] []).Union allMeta
              | none => imageMeta.mk [] [])
      ∧ m.Repository = (if fieldAt cfg component imageMeta.Repository ≠ []
          then fieldAt cfg component imageMeta.Repository
          else fieldAt cfg allImageConfig imageMeta.Repository)
      ∧ m.Tag = (if fieldAt cfg component imageMeta.Tag ≠ []
          then fieldAt cfg component imageMeta.Tag
          else fieldAt cfg allImageConfig imageMeta.Tag) := by
  unfold imageMetaClient.getImageMetaByComponent Reader.UnmarshalKey
  simp only [hmiss, hread]
  refine ⟨_, rfl, ?_, ?_, ?_⟩
  · cases cfg.lookup component <;> cases cfg.lookup allImageConfig <;> rfl
  · unfold fieldAt
    cases cfg.lookup component <;> cases cfg.lookup allImageConfig <;>
      simp only [Union_Repository] <;> split_ifs <;> simp_all
  · unfold fieldAt
    cases cfg.lookup component <;> cases cfg.lookup allImageConfig <;>
      simp only [Union_Tag] <;> split_ifs <;> simp_all

/-- C5, witness: with a wildcard entry and an entry for `capi` that only sets the tag,
`capi` gets the wildcard repository and its own tag. -/
theorem getImageMetaByComponent_union_witness :
    ∃ m, ((newImageMetaClient sampleReader).getImageMetaByComponent "capi".toList).1
        = .ok (some m)
      ∧ m = ((imageMeta.mk [] []).Union (imageMeta.mk "myreg.io/myorg".toList "v1".toList)).Union
          (imageMeta.mk [] "v2".toList)
      ∧ m.Repository = "myreg.io/myorg".toList
      ∧ m.Tag = "v2".toList :=
  getImageMetaByComponent_union (newImageMetaClient sampleReader) "capi".toList
    [("all".toList, { Repository := "myreg.io/myorg".toList, Tag := "v1".toList }),
     ("capi".toList, { Repository := [], Tag := "v2".toList })] (by decide) (by decide)

/-- C6: after `A.Union(B)` each field of `A` is the one of `B` when that is non-empty and
the previous one of `A` otherwise; so the repository of `B` wins when both set it, and the
one of `A` survives when only `A` sets it.  `B` is only read: the embedding passes it by
value, and when `A` and `B` are the same object the call leaves it as it is. -/
theorem Union_fields (A B : imageMeta) :
    (A.Union B).Repository = (if B.Repository ≠ [] then B.Repository else A.Repository)
      ∧ (A.Union B).Tag = (if B.Tag ≠ [] then B.Tag else A.Tag)
      ∧ (A.Repository ≠ [] → B.Repository ≠ [] → (A.Union B).Repository = B.Repository)
      ∧ (A.Repository ≠ [] → B.Repository = [] → (A.Union B).Repository = A.Repository)
      ∧ B.Union B = B := by
  refine ⟨?_, ?_, ?_, ?_, ?_⟩
  rotate_right
  · cases B with
    | mk r t =>
      unfold imageMeta.Union
      by_cases h1 : r = [] <;> by_cases h2 : t = [] <;> simp [h1, h2]
  · rw [Union_Repository]
    split_ifs <;> simp_all
  · rw [Union_Tag]
    split_ifs <;> simp_all
  · intro _ hB
    rw [Union_Repository, if_neg hB]
  · intro _ hB
    rw [Union_Repository, if_pos hB]

/-- The client after `AlterImage` is the client after `getImageMetaByComponent`. -/
theorem AlterImage_snd (p : imageMetaClient) (component image : Str) :
    (p.AlterImage component image).2 = (p.getImageMetaByComponent component).2 := by
  unfold imageMetaClient.AlterImage
  split <;> simp_all

/-- The result of `AlterImage`, from the result of `getImageMetaByComponent`. -/
theorem AlterImage_fst (p : imageMetaClient) (component image : Str) :
    (p.AlterImage component image).1
      = (match (p.getImageMetaByComponent component).1 with
          | .error err => .error err
          | .ok none => .ok image
          | .ok (some m) => m.ApplyToImage image) := by
  unfold imageMetaClient.AlterImage
  split <;> simp_all

/-- The rule without repository and tag re-serializes the parsed image. -/
theorem ApplyToImage_empty (m : imageMeta) (image : Str) (hR : m.Repository = [])
    (hT : m.Tag = []) :
    m.ApplyToImage image
      = (match ParseNormalizedNamed image with
          | .ok ref => .ok ref.String
          | .error err => .error err) := by
  unfold imageMeta.ApplyToImage
  cases ParseNormalizedNamed image <;> simp [hR, hT]

/-- C7, counterexample: with a configuration that has no entry, the rule resolved for
`capi` is empty, yet `AlterImage` turns `nginx:1.21` into `docker.io/library/nginx:1.21`
and fails on `Not_A_Valid__Image`. -/
theorem AlterImage_empty_rule_counterexample :
    ((newImageMetaClient emptyConfigReader).getImageMetaByComponent "capi".toList).1
        = .ok (some { Repository := [], Tag := [] })
    ∧ ((newImageMetaClient emptyConfigReader).AlterImage "capi".toList "nginx:1.21".toList).1
        = .ok "docker.io/library/nginx:1.21".toList
    ∧ ((newImageMetaClient emptyConfigReader).AlterImage "capi".toList "nginx:1.21".toList).1
        ≠ .ok "nginx:1.21".toList
    ∧ ((newImageMetaClient emptyConfigReader).AlterImage "capi".toList
          "Not_A_Valid__Image".toList).1 = .error .InvalidImageReference := by
  decide

/-- C7, amended: when the value resolved for the component is the no-override marker,
`AlterImage` returns the image unchanged; when it is a rule with empty repository and
empty tag, `AlterImage` returns the canonical string of the parsed image, and the parse
error when the image does not parse. -/
theorem AlterImage_empty_rule (p : imageMetaClient) (component image : Str)
    (r : Option imageMeta) (hres : (p.getImageMetaByComponent component).1 = .ok r)
    (hempty : ∀ m, r = some m → m.Repository = [] ∧ m.Tag = []) :
    (p.AlterImage component image).1
      = (if r = none then .ok image
         else match ParseNormalizedNamed image with
          | .ok ref => .ok ref.String
          | .error err => .error err) := by
  rw [AlterImage_fst, hres]
  cases r with
  | none => rfl
  | some m =>
    obtain ⟨hR, hT⟩ := hempty m rfl
    simp only [reduceCtorEq, if_false]
    exact ApplyToImage_empty m image hR hT

/-- C7, witness: the empty rule of a configuration without entries, on `nginx:1.21`. -/
theorem AlterImage_empty_rule_witness :
    ((newImageMetaClient emptyConfigReader).AlterImage "capi".toList "nginx:1.21".toList).1
      = (if (some (imageMeta.mk [] []) : Option imageMeta) = none then .ok "nginx:1.21".toList
         else match ParseNormalizedNamed "nginx:1.21".toList with
          | .ok ref => .ok ref.String
          | .error err => .error err) :=
  AlterImage_empty_rule (newImageMetaClient emptyConfigReader) "capi".toList "nginx:1.21".toList
    (some { Repository := [], Tag := [] }) (by decide)
    (fun m hm => by cases hm; exact ⟨rfl, rfl⟩)

theorem lookup_cons_self {β : Type} (k : Str) (v : β) (l : List (Str × β)) :
    List.lookup k ((k, v) :: l) = some v := by
  simp [List.lookup]

theorem lookup_cons_ne {β : Type} {k k1 : Str} (v : β) (l : List (Str × β)) (h : k ≠ k1) :
    List.lookup k ((k1, v) :: l) = List.lookup k l := by
  have : (k == k1) = false := by simpa using h
  simp [List.lookup, this]

/-- A cached component is answered from the cache and the client does not change. -/
theorem getImageMetaByComponent_hit {p : imageMetaClient} {component : Str}
    {v : Option imageMeta} (h : p.imageMetaCache.lookup component = some v) :
    p.getImageMetaByComponent component = (.ok v, p) := by
  unfold imageMetaClient.getImageMetaByComponent
  simp only [h]

/-- With a reader that always finds no configuration and a cache holding only
no-override markers, `getImageMetaByComponent` returns the marker, keeps both
properties and leaves the component cached. -/
theorem getImageMetaByComponent_no_config (p : imageMetaClient) (component : Str)
    (hnil : ∀ n, p.reader.answers n imagesConfigKey = .ok none) (hinv : cacheAllNil p) :
    (p.getImageMetaByComponent component).1 = .ok none
      ∧ (p.getImageMetaByComponent component).2.reader.answers = p.reader.answers
      ∧ cacheAllNil (p.getImageMetaByComponent component).2
      ∧ (p.getImageMetaByComponent component).2.imageMetaCache.lookup component = some none := by
  cases hl : p.imageMetaCache.lookup component with
  | some v =>
    have hv := hinv component v hl
    subst hv
    rw [getImageMetaByComponent_hit hl]
    exact ⟨rfl, rfl, hinv, hl⟩
  | none =>
    have hval : p.getImageMetaByComponent component
        = (.ok none, { reader := { p.reader with calls := p.reader.calls + 1 },
                       imageMetaCache := (component, none) :: p.imageMetaCache }) := by
      unfold imageMetaClient.getImageMetaByComponent Reader.UnmarshalKey
      simp only [hl, hnil]
    rw [hval]
    refine ⟨rfl, rfl, ?_, lookup_cons_self _ _ _⟩
    intro k v hk
    simp only at hk
    by_cases hkc : k = component
    · subst hkc
      rw [lookup_cons_self] at hk
      cases hk
      rfl
    · rw [lookup_cons_ne _ _ hkc] at hk
      exact hinv k v hk

/-- A sequence of calls keeps the two properties of
`getImageMetaByComponent_no_config`. -/
theorem calls_no_config (cs : List Call) (p : imageMetaClient)
    (hnil : ∀ n, p.reader.answers n imagesConfigKey = .ok none) (hinv : cacheAllNil p) :
    (∀ n, (p.calls cs).reader.answers n imagesConfigKey = .ok none) ∧ cacheAllNil (p.calls cs) := by
  induction cs generalizing p with
  | nil => exact ⟨hnil, hinv⟩
  | cons c cs ih =>
    have hstep : (∀ n, (p.call c).reader.answers n imagesConfigKey = .ok none)
        ∧ cacheAllNil (p.call c) := by
      cases c with
      | get component =>
        obtain ⟨-, h2, h3, -⟩ := getImageMetaByComponent_no_config p component hnil hinv
        exact ⟨fun n => by simp only [imageMetaClient.call]; rw [h2]; exact hnil n, h3⟩
      | alter component image =>
        obtain ⟨-, h2, h3, -⟩ := getImageMetaByComponent_no_config p component hnil hinv
        simp only [imageMetaClient.call, AlterImage_snd]
        exact ⟨fun n => by rw [h2]; exact hnil n, h3⟩
    exact ih (p.call c) hstep.1 hstep.2

/-- C8: with a reader that always succeeds and finds no configuration, after any
sequence of calls on a new client `AlterImage` returns the image unchanged and without
error, valid reference or not; afterwards the cache holds the no-override marker for the
component, and further calls for it return without reading and leave the client as it is. -/
theorem AlterImage_no_config (reader : Reader)
    (hnil : ∀ n, reader.answers n imagesConfigKey = .ok none) (before : List Call)
    (component image : Str) :
    (((newImageMetaClient reader).calls before).AlterImage component image).1 = .ok image
      ∧ (((newImageMetaClient reader).calls before).AlterImage component image).2.imageMetaCache.lookup
          component = some none
      ∧ ∀ image2,
          (((newImageMetaClient reader).calls before).AlterImage component image).2.AlterImage
              component image2
            = (.ok image2, (((newImageMetaClient reader).calls before).AlterImage component image).2) := by
  have h0 : cacheAllNil (newImageMetaClient reader) := by
    intro k v hk
    simp [newImageMetaClient, List.lookup] at hk
  obtain ⟨h1, h2⟩ := calls_no_config before (newImageMetaClient reader) hnil h0
  generalize (newImageMetaClient reader).calls before = p at h1 h2
  obtain ⟨g1, g2, g3, g4⟩ := getImageMetaByComponent_no_config p component h1 h2
  refine ⟨?_, ?_, ?_⟩
  · rw [AlterImage_fst, g1]
  · rw [AlterImage_snd]
    exact g4
  · intro image2
    rw [AlterImage_snd]
    unfold imageMetaClient.AlterImage
    rw [getImageMetaByComponent_hit g4]

/-- C8, witness: the reader that finds no configuration, after a call for another
component, on a string that is not a valid reference. -/
theorem AlterImage_no_config_witness :
    (((newImageMetaClient noConfigReader).calls [.get "capi".toList]).AlterImage
        "kubeadm".toList "Not_A_Valid__Image".toList).1 = .ok "Not_A_Valid__Image".toList
      ∧ (((newImageMetaClient noConfigReader).calls [.get "capi".toList]).AlterImage
          "kubeadm".toList "Not_A_Valid__Image".toList).2.imageMetaCache.lookup "kubeadm".toList
          = some none
      ∧ ∀ image2,
          (((newImageMetaClient noConfigReader).calls [.get "capi".toList]).AlterImage
              "kubeadm".toList "Not_A_Valid__Image".toList).2.AlterImage "kubeadm".toList image2
            = (.ok image2,
                (((newImageMetaClient noConfigReader).calls [.get "capi".toList]).AlterImage
                  "kubeadm".toList "Not_A_Valid__Image".toList).2) :=
  AlterImage_no_config noConfigReader (fun _ => rfl) [.get "capi".toList] "kubeadm".toList
    "Not_A_Valid__Image".toList

/-- A call, for any component, keeps every cached value. -/
theorem call_keeps_cached (p : imageMetaClient) (c : Call) {component : Str}
    {v : Option imageMeta} (h : p.imageMetaCache.lookup component = some v) :
    (p.call c).imageMetaCache.lookup component = some v := by
  have hget : ∀ other : Str,
      (p.getImageMetaByComponent other).2.imageMetaCache.lookup component = some v := by
    intro other
    cases hl : p.imageMetaCache.lookup other with
    | some w =>
      rw [getImageMetaByComponent_hit hl]
      exact h
    | none =>
      have hne : component ≠ other := by
        rintro rfl
        rw [h] at hl
        cases hl
      unfold imageMetaClient.getImageMetaByComponent
      simp only [hl]
      split
      · exact h
      · simp only
        rw [lookup_cons_ne _ _ hne]
        exact h
      · simp only
        rw [lookup_cons_ne _ _ hne]
        exact h
  cases c with
  | get other => exact hget other
  | alter other image =>
    simp only [imageMetaClient.call, AlterImage_snd]
    exact hget other

/-- A sequence of calls keeps every cached value. -/
theorem calls_keep_cached (cs : List Call) (p : imageMetaClient) {component : Str}
    {v : Option imageMeta} (h : p.imageMetaCache.lookup component = some v) :
    (p.calls cs).imageMetaCache.lookup component = some v := by
  induction cs generalizing p with
  | nil => exact h
  | cons c cs ih => exact ih (p.call c) (call_keeps_cached p c h)

/-- After a successful `getImageMetaByComponent` the component is cached with the
returned value. -/
theorem getImageMetaByComponent_caches {p p1 : imageMetaClient} {component : Str}
    {v : Option imageMeta} (h : p.getImageMetaByComponent component = (.ok v, p1)) :
    p1.imageMetaCache.lookup component = some v := by
  cases hl : p.imageMetaCache.lookup component with
  | some w =>
    rw [getImageMetaByComponent_hit hl] at h
    cases h
    exact hl
  | none =>
    unfold imageMetaClient.getImageMetaByComponent at h
    simp only [hl] at h
    split at h
    · cases h
    · cases h
      exact lookup_cons_self _ _ _
    · cases h
      exact lookup_cons_self _ _ _

/-- C10: once `getImageMetaByComponent` has succeeded for a component, after any later
calls for any components the cache still holds the returned value for it, and a further
call for it returns that value without calling the reader (whatever the reader would
answer) and leaves the client as it is. -/
theorem getImageMetaByComponent_stable (p p1 : imageMetaClient) (component : Str)
    (v : Option imageMeta) (later : List Call)
    (h : p.getImageMetaByComponent component = (.ok v, p1)) :
    (p1.calls later).imageMetaCache.lookup component = some v
      ∧ (p1.calls later).getImageMetaByComponent component = (.ok v, p1.calls later)
      ∧ ((p1.calls later).getImageMetaByComponent component).2.reader.calls
          = (p1.calls later).reader.calls := by
  have hc := calls_keep_cached later p1 (getImageMetaByComponent_caches h)
  refine ⟨hc, getImageMetaByComponent_hit hc, ?_⟩
  rw [getImageMetaByComponent_hit hc]

/-- C10, witness: `capi` is resolved, then `kubeadm` is resolved and an image altered;
`capi` is still answered from the cache. -/
theorem getImageMetaByComponent_stable_witness :
    (((newImageMetaClient sampleReader).getImageMetaByComponent "capi".toList).2.calls
        [.get "kubeadm".toList, .alter "all".toList imageTagged]).imageMetaCache.lookup
        "capi".toList
        = some (some { Repository := "myreg.io/myorg".toList, Tag := "v2".toList })
      ∧ (((newImageMetaClient sampleReader).getImageMetaByComponent "capi".toList).2.calls
          [.get "kubeadm".toList, .alter "all".toList imageTagged]).getImageMetaByComponent
          "capi".toList
        = (.ok (some { Repository := "myreg.io/myorg".toList, Tag := "v2".toList }),
            ((newImageMetaClient sampleReader).getImageMetaByComponent "capi".toList).2.calls
              [.get "kubeadm".toList, .alter "all".toList imageTagged])
      ∧ ((((newImageMetaClient sampleReader).getImageMetaByComponent "capi".toList).2.calls
          [.get "kubeadm".toList, .alter "all".toList imageTagged]).getImageMetaByComponent
          "capi".toList).2.reader.calls
        = (((newImageMetaClient sampleReader).getImageMetaByComponent "capi".toList).2.calls
            [.get "kubeadm".toList, .alter "all".toList imageTagged]).reader.calls :=
  getImageMetaByComponent_stable (newImageMetaClient sampleReader)
    ((newImageMetaClient sampleReader).getImageMetaByComponent "capi".toList).2 "capi".toList
    (some { Repository := "myreg.io/myorg".toList, Tag := "v2".toList })
    [.get "kubeadm".toList, .alter "all".toList imageTagged] rfl

/-- C9: when the image does not parse, `ApplyToImage` returns the parse error, whatever
the rule; no output string is produced. -/
theorem ApplyToImage_invalid (i : imageMeta) (image : Str) (err : Error)
    (h : ParseNormalizedNamed image = .error err) : i.ApplyToImage image = .error err := by
  unfold imageMeta.ApplyToImage
  rw [h]

/-- C9, witness: `Not_A_Valid__Image` does not parse and fails for every rule. -/
theorem ApplyToImage_invalid_witness :
    ParseNormalizedNamed "Not_A_Valid__Image".toList = .error .InvalidImageReference
    ∧ ∀ i : imageMeta,
        i.ApplyToImage "Not_A_Valid__Image".toList = .error .InvalidImageReference :=
  ⟨by decide, fun i =>
    ApplyToImage_invalid i "Not_A_Valid__Image".toList .InvalidImageReference (by decide)⟩

/-! ## Reads, failures and the frame of the cache -/

theorem misses_eq_card (known cs : List Str) :
    misses known cs = (cs.toFinset \ known.toFinset).card := by
  induction cs generalizing known with
  | nil => simp [misses]
  | cons c cs ih =>
    unfold misses
    by_cases hc : c ∈ known
    · rw [if_pos hc, ih]
      congr 1
      ext x
      simp only [List.toFinset_cons, Finset.mem_sdiff, Finset.mem_insert, List.mem_toFinset]
      constructor
      · rintro ⟨h1, h2⟩
        exact ⟨Or.inr h1, h2⟩
      · rintro ⟨h1 | h1, h2⟩
        · subst h1
          exact absurd hc h2
        · exact ⟨h1, h2⟩
    · rw [if_neg hc, ih]
      have hset : (c :: cs).toFinset \ known.toFinset
          = insert c (cs.toFinset \ (c :: known).toFinset) := by
        ext x
        simp only [List.toFinset_cons, Finset.mem_sdiff, Finset.mem_insert, List.mem_toFinset]
        constructor
        · rintro ⟨h1 | h1, h2⟩
          · exact Or.inl h1
          · by_cases hx : x = c
            · exact Or.inl hx
            · exact Or.inr ⟨h1, by simp [hx, h2]⟩
        · rintro (h1 | ⟨h1, h2⟩)
          · subst h1
            exact ⟨Or.inl rfl, hc⟩
          · simp only [not_or] at h2
            exact ⟨Or.inr h1, h2.2⟩
      rw [hset, Finset.card_insert_of_not_mem]
      simp

/-- The misses of a sequence met with an empty cache are its distinct components. -/
theorem misses_nil (cs : List Str) : misses [] cs = cs.dedup.length := by
  rw [misses_eq_card, ← List.card_toFinset]
  simp

/-- One call with a reader that always succeeds: a cached component costs no read, any
other costs one read and becomes cached. -/
theorem call_reads (p : imageMetaClient) (c : Call) (known : List Str)
    (hok : ∀ n, ∃ cfg, p.reader.answers n imagesConfigKey = .ok cfg)
    (hknown : ∀ k, k ∈ known ↔ p.imageMetaCache.lookup k ≠ none) :
    (p.call c).reader.answers = p.reader.answers
      ∧ (c.component ∈ known → (p.call c).reader.calls = p.reader.calls
          ∧ ∀ k, k ∈ known ↔ (p.call c).imageMetaCache.lookup k ≠ none)
      ∧ (c.component ∉ known → (p.call c).reader.calls = p.reader.calls + 1
          ∧ ∀ k, k ∈ c.component :: known ↔ (p.call c).imageMetaCache.lookup k ≠ none) := by
  have hstate : (p.call c) = (p.getImageMetaByComponent c.component).2 := by
    cases c with
    | get component => rfl
    | alter component image => simp only [imageMetaClient.call, AlterImage_snd, Call.component]
  rw [hstate]
  generalize c.component = component
  cases hl : p.imageMetaCache.lookup component with
  | some v =>
    rw [getImageMetaByComponent_hit hl]
    have hin : component ∈ known := (hknown component).mpr (by rw [hl]; simp)
    exact ⟨rfl, fun _ => ⟨rfl, hknown⟩, fun h => absurd hin h⟩
  | none =>
    have hnin : component ∉ known := fun h => (hknown component).mp h hl
    obtain ⟨cfg, hcfg⟩ := hok p.reader.calls
    have hkeys : ∀ (v : Option imageMeta) (k : Str),
        k ∈ component :: known ↔ List.lookup k ((component, v) :: p.imageMetaCache) ≠ none := by
      intro v k
      by_cases hk : k = component
      · subst hk
        simp [lookup_cons_self]
      · rw [lookup_cons_ne _ _ hk, ← hknown k]
        simp [hk]
    unfold imageMetaClient.getImageMetaByComponent Reader.UnmarshalKey
    simp only [hl, hcfg]
    cases cfg with
    | none => exact ⟨rfl, fun h => absurd h hnin, fun _ => ⟨rfl, hkeys _⟩⟩
    | some entries => exact ⟨rfl, fun h => absurd h hnin, fun _ => ⟨rfl, hkeys _⟩⟩

/-- A sequence of calls with a reader that always succeeds reads once per miss. -/
theorem calls_reads (cs : List Call) (p : imageMetaClient) (known : List Str)
    (hok : ∀ n, ∃ cfg, p.reader.answers n imagesConfigKey = .ok cfg)
    (hknown : ∀ k, k ∈ known ↔ p.imageMetaCache.lookup k ≠ none) :
    (p.calls cs).reader.calls = p.reader.calls + misses known (cs.map Call.component) := by
  induction cs generalizing p known with
  | nil => simp [imageMetaClient.calls, misses]
  | cons c cs ih =>
    obtain ⟨h1, h2, h3⟩ := call_reads p c known hok hknown
    have hok1 : ∀ n, ∃ cfg, (p.call c).reader.answers n imagesConfigKey = .ok cfg := by
      rw [h1]
      exact hok
    have hstep : (p.calls (c :: cs)) = (p.call c).calls cs := rfl
    rw [hstep]
    simp only [List.map_cons, misses]
    by_cases hc : c.component ∈ known
    · obtain ⟨g1, g2⟩ := h2 hc
      rw [if_pos hc, ih (p.call c) known hok1 g2, g1]
    · obtain ⟨g1, g2⟩ := h3 hc
      rw [if_neg hc, ih (p.call c) (c.component :: known) hok1 g2, g1]
      omega

/-- C11, counterexample: the reader always succeeds, and two calls for two components
invoke it twice. -/
theorem reader_invoked_once_counterexample :
    (∀ n, ∃ cfg, sampleReader.answers n imagesConfigKey = .ok cfg)
    ∧ ((newImageMetaClient sampleReader).calls
        [.get "capi".toList, .get "kubeadm".toList]).reader.calls = 2 :=
  ⟨fun _ => ⟨_, rfl⟩, by decide⟩

/-- C11, amended: with a reader that always succeeds, a sequence of calls on a new client
invokes the reader exactly once for each distinct component of the sequence: on the first
call for it, and not again on later calls for it. -/
theorem reader_invoked_once_per_component (reader : Reader) (cs : List Call)
    (hok : ∀ n, ∃ cfg, reader.answers n imagesConfigKey = .ok cfg) :
    ((newImageMetaClient reader).calls cs).reader.calls
      = reader.calls + (cs.map Call.component).dedup.length := by
  rw [← misses_nil]
  exact calls_reads cs (newImageMetaClient reader) [] hok (by simp [newImageMetaClient])

/-- C11, witness: three calls over two components invoke the reader twice. -/
theorem reader_invoked_once_per_component_witness :
    ((newImageMetaClient sampleReader).calls
        [.get "capi".toList, .alter "kubeadm".toList imageTagged, .get "capi".toList]).reader.calls
      = sampleReader.calls
        + (([.get "capi".toList, .alter "kubeadm".toList imageTagged,
              .get "capi".toList] : List Call).map Call.component).dedup.length :=
  reader_invoked_once_per_component sampleReader
    [.get "capi".toList, .alter "kubeadm".toList imageTagged, .get "capi".toList]
    (fun _ => ⟨_, rfl⟩)

/-- C12: when the reader fails during `getImageMetaByComponent`, the call returns the
wrapped error and no rule, the cache stays as it was, and the reader has been invoked
once; the next call for the component invokes the reader again and, when that read
succeeds, returns the normally resolved rule. -/
theorem getImageMetaByComponent_reader_failure (p : imageMetaClient) (component cause : Str)
    (hmiss : p.imageMetaCache.lookup component = none)
    (hfail : p.reader.answers p.reader.calls imagesConfigKey = .error cause) :
    (p.getImageMetaByComponent component).1 = .error (.ConfigUnreadable cause)
      ∧ (p.getImageMetaByComponent component).2.imageMetaCache = p.imageMetaCache
      ∧ (p.getImageMetaByComponent component).2.reader.calls = p.reader.calls + 1
      ∧ ((p.getImageMetaByComponent component).2.getImageMetaByComponent component).2.reader.calls
          = p.reader.calls + 2
      ∧ ∀ cfg, p.reader.answers (p.reader.calls + 1) imagesConfigKey = .ok cfg →
          ((p.getImageMetaByComponent component).2.getImageMetaByComponent component).1
            = .ok (resolve cfg component) := by
  have hval : p.getImageMetaByComponent component
      = (.error (.ConfigUnreadable cause),
          { reader := { p.reader with calls := p.reader.calls + 1 },
            imageMetaCache := p.imageMetaCache }) := by
    unfold imageMetaClient.getImageMetaByComponent Reader.UnmarshalKey
    simp only [hmiss, hfail]
  rw [hval]
  refine ⟨rfl, rfl, rfl, ?_, ?_⟩
  · unfold imageMetaClient.getImageMetaByComponent Reader.UnmarshalKey
    simp only [hmiss]
    split <;> rename_i heq <;> simp only [Prod.mk.injEq] at heq <;> obtain ⟨-, rfl⟩ := heq <;> rfl
  · intro cfg hcfg
    unfold imageMetaClient.getImageMetaByComponent Reader.UnmarshalKey
    simp only [hmiss, hcfg]
    cases cfg with
    | none => rfl
    | some entries =>
      simp only [resolve]
      cases entries.lookup component <;> rfl

/-- C12, witness: the reader fails on the first call and succeeds on the second. -/
theorem getImageMetaByComponent_reader_failure_witness :
    ((newImageMetaClient flakyReader).getImageMetaByComponent "capi".toList).1
        = .error (.ConfigUnreadable "unreadable".toList)
      ∧ ((newImageMetaClient flakyReader).getImageMetaByComponent "capi".toList).2.imageMetaCache
          = (newImageMetaClient flakyReader).imageMetaCache
      ∧ ((newImageMetaClient flakyReader).getImageMetaByComponent "capi".toList).2.reader.calls
          = (newImageMetaClient flakyReader).reader.calls + 1
      ∧ (((newImageMetaClient flakyReader).getImageMetaByComponent
            "capi".toList).2.getImageMetaByComponent "capi".toList).2.reader.calls
          = (newImageMetaClient flakyReader).reader.calls + 2
      ∧ ∀ cfg, (newImageMetaClient flakyReader).reader.answers
            ((newImageMetaClient flakyReader).reader.calls + 1) imagesConfigKey = .ok cfg →
          (((newImageMetaClient flakyReader).getImageMetaByComponent
            "capi".toList).2.getImageMetaByComponent "capi".toList).1
            = .ok (resolve cfg "capi".toList) :=
  getImageMetaByComponent_reader_failure (newImageMetaClient flakyReader) "capi".toList
    "unreadable".toList (by decide) (by decide)

/-- C13: `getImageMetaByComponent` changes at most the cache entry of its component: for
every other key the cache answers the same before and after the call, whatever the cache
and the reader are. -/
theorem getImageMetaByComponent_frame (p : imageMetaClient) (component key : Str)
    (hne : key ≠ component) :
    (p.getImageMetaByComponent component).2.imageMetaCache.lookup key
      = p.imageMetaCache.lookup key := by
  cases hl : p.imageMetaCache.lookup component with
  | some v => rw [getImageMetaByComponent_hit hl]
  | none =>
    unfold imageMetaClient.getImageMetaByComponent
    simp only [hl]
    split
    · rfl
    · exact lookup_cons_ne _ _ hne
    · exact lookup_cons_ne _ _ hne

/-- C13, witness: resolving `capi` does not resolve `kubeadm`. -/
theorem getImageMetaByComponent_frame_witness :
    ((newImageMetaClient sampleReader).getImageMetaByComponent
        "capi".toList).2.imageMetaCache.lookup "kubeadm".toList
      = (newImageMetaClient sampleReader).imageMetaCache.lookup "kubeadm".toList :=
  getImageMetaByComponent_frame (newImageMetaClient sampleReader) "capi".toList
    "kubeadm".toList (by decide)

/-! ## The algebra of `Union` -/

theorem imageMeta_ext {A B : imageMeta} (h1 : A.Repository = B.Repository)
    (h2 : A.Tag = B.Tag) : A = B := by
  cases A
  cases B
  simp_all

/-- C16: `Union` is associative and the empty rule is a two-sided identity. -/
theorem Union_assoc_and_identity (A B C : imageMeta) :
    (A.Union B).Union C = A.Union (B.Union C)
      ∧ A.Union { Repository := [], Tag := [] } = A
      ∧ (imageMeta.mk [] []).Union A = A := by
  refine ⟨?_, ?_, ?_⟩
  · apply imageMeta_ext
    · simp only [Union_Repository]
      split_ifs <;> simp_all
    · simp only [Union_Tag]
      split_ifs <;> simp_all
  · apply imageMeta_ext
    · simp [Union_Repository]
    · simp [Union_Tag]
  · apply imageMeta_ext
    · simp only [Union_Repository]
      split_ifs <;> simp_all
    · simp only [Union_Tag]
      split_ifs <;> simp_all

/-- C17: merging never resets a set value: a field that is non-empty in `A` is non-empty
after `A.Union(B)`, and a merged field is empty exactly when it is empty in both. -/
theorem Union_never_resets (A B : imageMeta) :
    (A.Repository ≠ [] → (A.Union B).Repository ≠ [])
      ∧ (A.Tag ≠ [] → (A.Union B).Tag ≠ [])
      ∧ ((A.Union B).Repository = [] ↔ A.Repository = [] ∧ B.Repository = [])
      ∧ ((A.Union B).Tag = [] ↔ A.Tag = [] ∧ B.Tag = []) := by
  refine ⟨?_, ?_, ?_, ?_⟩
  · intro h
    rw [Union_Repository]
    split_ifs <;> simp_all
  · intro h
    rw [Union_Tag]
    split_ifs <;> simp_all
  · rw [Union_Repository]
    split_ifs <;> simp_all
  · rw [Union_Tag]
    split_ifs <;> simp_all

/-! ## Invalid tag overrides and trailing slashes -/

/-- C19: a tag conforms to the tag grammar exactly when it is a word character followed
by at most 127 characters among letters, digits, `_`, `.` and `-`; when the tag of the
rule is non-empty and does not conform, `ApplyToImage` returns an error, whatever the
image, so no output carries that tag. -/
theorem ApplyToImage_invalid_tag (i : imageMeta) (image : Str) (hT : i.Tag ≠ [])
    (hbad : isTag i.Tag = false) :
    (∀ t, isTag t = true ↔
        ∃ c cs, t = c :: cs ∧ isWord c = true ∧ (∀ x ∈ cs, isTagChar x = true)
          ∧ cs.length ≤ 127)
      ∧ ∃ err, i.ApplyToImage image = .error err := by
  constructor
  · intro t
    cases t with
    | nil => simp [isTag]
    | cons c cs => simp [isTag, and_assoc]
  · unfold imageMeta.ApplyToImage
    cases ParseNormalizedNamed image with
    | error err => exact ⟨err, rfl⟩
    | ok ref =>
      simp only
      split
      · exact ⟨_, rfl⟩
      · simp only [hT, ne_eq, not_false_eq_true, if_true, WithTag, hbad, Bool.not_false]
        exact ⟨_, rfl⟩

set_option maxRecDepth 4000

/-- C19, witness: a tag with a space is rejected on a valid image; so are a tag with a
`/`, tags that start with `.` or `-` and a tag of 129 characters, while a tag of 128
characters conforms. -/
theorem ApplyToImage_invalid_tag_witness :
    ((∀ t, isTag t = true ↔
        ∃ c cs, t = c :: cs ∧ isWord c = true ∧ (∀ x ∈ cs, isTagChar x = true)
          ∧ cs.length ≤ 127)
      ∧ ∃ err, (imageMeta.mk [] "bad tag".toList).ApplyToImage imageTagged = .error err)
    ∧ isTag "a/b".toList = false ∧ isTag ".x".toList = false ∧ isTag "-x".toList = false
    ∧ isTag (List.replicate 129 'a') = false ∧ isTag (List.replicate 128 'a') = true :=
  ⟨ApplyToImage_invalid_tag (imageMeta.mk [] "bad tag".toList) imageTagged (by decide)
      (by decide),
    by decide, by decide, by decide, by decide, by decide⟩

theorem TrimSuffix_append_slash (R : Str) : TrimSuffix (R ++ ['/']) ['/'] = R := by
  unfold TrimSuffix
  have h : (['/'] : Str).isSuffixOf (R ++ ['/']) = true := by
    rw [List.isSuffixOf_iff_suffix]
    exact List.suffix_append _ _
  simp [h]

theorem TrimSuffix_of_not_slash {R : Str} (h : R.getLast? ≠ some '/') :
    TrimSuffix R ['/'] = R := by
  unfold TrimSuffix
  have hs : (['/'] : Str).isSuffixOf R = false := by
    rw [Bool.eq_false_iff]
    intro hs
    rw [List.isSuffixOf_iff_suffix] at hs
    obtain ⟨R0, hR0⟩ := hs
    apply h
    rw [← hR0]
    simp
  simp [hs]

/-- C15, counterexample: the repository `myreg.io/myorg/` is accepted, but with one more
`/` it is rejected: only one trailing `/` is stripped. -/
theorem ApplyToImage_trailing_slash_counterexample :
    "myreg.io/myorg/".toList ≠ []
    ∧ (imageMeta.mk ("myreg.io/myorg/".toList ++ ['/']) []).ApplyToImage imageTagged
        = .error .InvalidImageReference
    ∧ (imageMeta.mk "myreg.io/myorg/".toList []).ApplyToImage imageTagged
        = .ok "myreg.io/myorg/my-image:v1.2.3".toList := by
  decide

/-- C15, amended: for a non-empty repository that does not itself end in `/`, the rule
with the repository followed by `/` gives the same result as the rule with the
repository, output or error, on every image. -/
theorem ApplyToImage_trailing_slash (R T image : Str) (hne : R ≠ [])
    (hslash : R.getLast? ≠ some '/') :
    (imageMeta.mk (R ++ ['/']) T).ApplyToImage image = (imageMeta.mk R T).ApplyToImage image := by
  unfold imageMeta.ApplyToImage
  have h1 : R ++ ['/'] ≠ [] := by simp
  simp only [TrimSuffix_append_slash, TrimSuffix_of_not_slash hslash, hne, h1, ne_eq,
    not_false_eq_true, if_true]

/-- C15, witness: `myreg.io/myorg` with and without a trailing `/`. -/
theorem ApplyToImage_trailing_slash_witness :
    (imageMeta.mk ("myreg.io/myorg".toList ++ ['/']) []).ApplyToImage imageTagged
      = (imageMeta.mk "myreg.io/myorg".toList []).ApplyToImage imageTagged :=
  ApplyToImage_trailing_slash "myreg.io/myorg".toList [] imageTagged (by decide) (by decide)

/-! ## Parsing a canonical string back -/

theorem Named.eq_mkRef (n : Named) : n = mkRef n.repo n.asTagged n.asDigested := by
  cases n <;> rfl

theorem mkRef_repo (r : repository) (t d : Option Str) : (mkRef r t d).repo = r := by
  cases t <;> cases d <;> rfl

theorem mkRef_asTagged (r : repository) (t d : Option Str) : (mkRef r t d).asTagged = t := by
  cases t <;> cases d <;> rfl

theorem mkRef_asDigested (r : repository) (t d : Option Str) :
    (mkRef r t d).asDigested = d := by
  cases t <;> cases d <;> rfl

theorem mkRef_String (r : repository) (t d : Option Str) :
    (mkRef r t d).String = r.Name ++ tagPart t ++ digestPart d := by
  cases t <;> cases d <;> simp [mkRef, Named.String, tagPart, digestPart]

/-- What `splitDockerDomain` returns: the host has no `/`, is not the legacy name and is
host-like, and under the default registry the remainder has a `/`. -/
theorem splitDockerDomain_normal (s : Str) :
    '/' ∉ (splitDockerDomain s).1 ∧ (splitDockerDomain s).1 ≠ legacyDefaultDomain
      ∧ hostLike (splitDockerDomain s).1
      ∧ ((splitDockerDomain s).1 = defaultDomain → '/' ∈ (splitDockerDomain s).2) := by
  have hdef : '/' ∉ defaultDomain ∧ defaultDomain ≠ legacyDefaultDomain ∧ hostLike defaultDomain :=
    ⟨by decide, by decide, Or.inl (by decide)⟩
  have key : ∀ D0 R0 : Str, '/' ∉ D0 → hostLike D0 →
      let D := if D0 = legacyDefaultDomain then defaultDomain else D0
      let R := if D = defaultDomain ∧ '/' ∉ R0 then officialRepoName ++ '/' :: R0 else R0
      '/' ∉ D ∧ D ≠ legacyDefaultDomain ∧ hostLike D ∧ (D = defaultDomain → '/' ∈ R) := by
    intro D0 R0 h1 h2
    simp only
    refine ⟨?_, ?_, ?_, ?_⟩
    · split
      · exact hdef.1
      · exact h1
    · split
      · exact hdef.2.1
      · assumption
    · split
      · exact hdef.2.2
      · exact h2
    · intro hD
      simp only [hD, true_and]
      by_cases hR : '/' ∈ R0 <;> simp [hR]
  unfold splitDockerDomain
  cases hc : cutFirst '/' s with
  | none => exact key defaultDomain s hdef.1 hdef.2.2
  | some ab =>
    obtain ⟨a, b⟩ := ab
    simp only
    split
    · exact key defaultDomain s hdef.1 hdef.2.2
    · rename_i hcond
      refine key a b (cutFirst_eq_some.mp hc).2 ?_
      simp only [Bool.and_eq_true, Bool.not_eq_true', bne_iff_ne, ne_eq, not_and,
        Decidable.not_not] at hcond
      unfold hostLike
      by_cases hany : (a.any fun c => c == '.' || c == ':') = true
      · exact Or.inl hany
      · exact Or.inr (hcond (by simpa using hany))

/-- A host and remainder of the shape `splitDockerDomain` returns are found again by
`splitDockerDomain` in `host/remainder`. -/
theorem splitDockerDomain_of_normal {D R : Str} (h1 : '/' ∉ D) (h2 : D ≠ legacyDefaultDomain)
    (h3 : hostLike D) (h4 : D = defaultDomain → '/' ∈ R) :
    splitDockerDomain (D ++ '/' :: R) = (D, R) := by
  unfold splitDockerDomain
  rw [cutFirst_eq_some.mpr ⟨rfl, h1⟩]
  simp only
  have hcond : ¬ ((!(D.any fun c => c == '.' || c == ':') && D != "localhost".toList) = true) := by
    rcases h3 with h3 | h3
    · simp [h3]
    · simp [h3]
  rw [if_neg hcond]
  simp only [h2, if_false]
  by_cases hD : D = defaultDomain
  · simp [hD, h4 hD]
  · simp [hD]

theorem splitTag_name {D R : Str} (hcolon : ':' ∉ R) :
    splitTag (D ++ '/' :: R) = (D ++ '/' :: R, none) := by
  unfold splitTag
  cases hc : cutLast ':' (D ++ '/' :: R) with
  | none => rfl
  | some ab =>
    obtain ⟨n, t⟩ := ab
    obtain ⟨z, hz⟩ := mem_of_append_eq (cutLast_eq_some.mp hc).1.symm
      (by simp only [List.mem_cons, not_or]; exact ⟨by decide, hcolon⟩)
    have : '/' ∈ t := by simp [hz]
    simp [this]

theorem tagPart_ne {tag : Option Str} (h : ∀ t, tag = some t → isTag t = true) :
    '@' ∉ tagPart tag ∧ '/' ∉ tagPart tag := by
  cases tag with
  | none => simp [tagPart]
  | some t =>
    have ht := isTag_ne (h t rfl)
    constructor
    · intro hm
      rcases List.mem_cons.mp hm with hm | hm
      · exact absurd hm (by decide)
      · exact (ht _ hm).1 rfl
    · intro hm
      rcases List.mem_cons.mp hm with hm | hm
      · exact absurd hm (by decide)
      · exact (ht _ hm).2.1 rfl

theorem digestPart_ne {dig : Option Str} (h : ∀ d, dig = some d → isDigest d = true) :
    '/' ∉ digestPart dig := by
  cases dig with
  | none => simp [digestPart]
  | some d =>
    have hd := isDigest_ne (h d rfl)
    intro hm
    rcases List.mem_cons.mp hm with hm | hm
    · exact absurd hm (by decide)
    · exact (hd _ hm).2 rfl

theorem getBestReferenceType_eq_mkRef (repo : repository) {tag dig : Option Str}
    (htag : ∀ t, tag = some t → t ≠ []) (hdig : ∀ d, dig = some d → d ≠ []) :
    getBestReferenceType repo (tag.getD []) (dig.getD []) = mkRef repo tag dig := by
  cases tag with
  | none =>
    cases dig with
    | none => rfl
    | some d => simp [getBestReferenceType, mkRef, hdig d rfl]
  | some t =>
    cases dig with
    | none => simp [getBestReferenceType, mkRef, htag t rfl]
    | some d => simp [getBestReferenceType, mkRef, htag t rfl, hdig d rfl]

/-- `Parse` accepts a name followed by a valid tag and a valid digest, and returns the
reference made of these parts. -/
theorem Parse_of_parts {N : Str} {repo : repository} (tag dig : Option Str)
    (hsn : splitName N = some repo) (hst : splitTag N = (N, none))
    (hlen : N.length ≤ NameTotalLengthMax)
    (htag : ∀ t, tag = some t → isTag t = true)
    (hdig : ∀ d, dig = some d → isDigest d = true ∧ digestValidate d = true) :
    Parse (N ++ tagPart tag ++ digestPart dig) = .ok (mkRef repo tag dig) := by
  have hat : '@' ∉ N := by
    have := splitName_name_ne hsn
    rwa [(splitName_some hsn).1] at this
  have hat2 : '@' ∉ N ++ tagPart tag := by
    intro hm
    rcases List.mem_append.mp hm with hm | hm
    · exact hat hm
    · exact (tagPart_ne htag).1 hm
  have h1 : splitDigest (N ++ tagPart tag ++ digestPart dig) = (N ++ tagPart tag, dig) := by
    unfold splitDigest
    cases dig with
    | none =>
      simp only [digestPart, List.append_nil]
      rw [cutFirst_eq_none.mpr hat2]
    | some d =>
      simp only [digestPart]
      rw [cutFirst_eq_some.mpr ⟨rfl, hat2⟩]
  have h2 : splitTag (N ++ tagPart tag) = (N, tag) := by
    cases tag with
    | none => simpa [tagPart] using hst
    | some t =>
      have ht := isTag_ne (htag t rfl)
      unfold splitTag
      simp only [tagPart]
      rw [cutLast_eq_some.mpr ⟨rfl, fun hm => (ht _ hm).2.2 rfl⟩]
      have : '/' ∉ t := fun hm => (ht _ hm).2.1 rfl
      simp [this]
  unfold Parse
  rw [h1]
  simp only [h2, hsn]
  have e4 : ¬ N.length > NameTotalLengthMax := by omega
  rw [getBestReferenceType_eq_mkRef repo (fun t h => isTag_ne_nil (htag t h))
    (fun d h => isDigest_ne_nil (hdig d h).1)]
  cases tag with
  | none =>
    cases dig with
    | none => simp [e4]
    | some d => simp [e4, (hdig d rfl).1, (hdig d rfl).2]
  | some t =>
    cases dig with
    | none => simp [e4, htag t rfl]
    | some d => simp [e4, htag t rfl, (hdig d rfl).1, (hdig d rfl).2]

/-- What a successful `Parse` returns, in parts: the input is a name, a tag part and a
digest part, and the reference is made of these. -/
theorem Parse_parts {x : Str} {ref : Named} (h : Parse x = .ok ref) :
    ∃ N repo tag dig, x = N ++ tagPart tag ++ digestPart dig ∧ splitName N = some repo
      ∧ N.length ≤ NameTotalLengthMax
      ∧ (∀ t, tag = some t → isTag t = true)
      ∧ (∀ d, dig = some d → isDigest d = true ∧ digestValidate d = true)
      ∧ ref = mkRef repo tag dig := by
  obtain ⟨repo, hsn, htag, hdig, hlen, href⟩ := Parse_ok h
  refine ⟨_, repo, _, _, ?_, hsn, hlen, htag, hdig, ?_⟩
  · have e1 : x = (splitDigest x).1 ++ digestPart (splitDigest x).2 := by
      unfold splitDigest
      cases hc : cutFirst '@' x with
      | none => simp [digestPart]
      | some ab =>
        obtain ⟨a, d⟩ := ab
        simpa [digestPart] using (cutFirst_eq_some.mp hc).1
    have e2 : ∀ y : Str, y = (splitTag y).1 ++ tagPart (splitTag y).2 := by
      intro y
      unfold splitTag
      cases hc : cutLast ':' y with
      | none => simp [tagPart]
      | some ab =>
        obtain ⟨n, t⟩ := ab
        simp only
        split
        · simp [tagPart]
        · simpa [tagPart] using (cutLast_eq_some.mp hc).1
    conv_lhs => rw [e1, e2 (splitDigest x).1]
  · rw [href]
    exact getBestReferenceType_eq_mkRef repo (fun t h => isTag_ne_nil (htag t h))
      (fun d h => isDigest_ne_nil (hdig d h).1)


/-- The text up to the first `:` (all of it when there is none): `remoteName`. -/
theorem remoteName_append {R : Str} (suf : Str) (hcolon : ':' ∉ R) :
    ∃ x, (match cutFirst ':' (R ++ suf) with | some (a, _) => a | none => R ++ suf) = R ++ x := by
  cases hc : cutFirst ':' (R ++ suf) with
  | none => exact ⟨suf, rfl⟩
  | some ab =>
    obtain ⟨a, b⟩ := ab
    obtain ⟨hab, ha⟩ := cutFirst_eq_some.mp hc
    simp only
    clear hc
    induction R generalizing a with
    | nil => exact ⟨a, rfl⟩
    | cons r rs ih =>
      cases a with
      | nil =>
        simp at hab
        exact absurd (by simp [hab.1]) hcolon
      | cons y ys =>
        simp at hab
        simp at ha
        obtain ⟨x, hx⟩ := ih (fun h => hcolon (by simp [h])) ys hab.2 ha.2
        exact ⟨x, by simp [hab.1, hx]⟩

theorem ToLower_of_append {R x : Str} (h : ToLower (R ++ x) = R ++ x) : ToLower R = R := by
  unfold ToLower at *
  rw [List.map_append] at h
  exact (List.append_inj h (by simp)).1

/-- What a successful `ParseNormalizedNamed` went through, with the lower-case test. -/
theorem ParseNormalizedNamed_inv {s : Str} {ref : Named} (h : ParseNormalizedNamed s = .ok ref) :
    ToLower (match cutFirst ':' (splitDockerDomain s).2 with
        | some (a, _) => a
        | none => (splitDockerDomain s).2)
      = (match cutFirst ':' (splitDockerDomain s).2 with
        | some (a, _) => a
        | none => (splitDockerDomain s).2)
    ∧ Parse ((splitDockerDomain s).1 ++ '/' :: (splitDockerDomain s).2) = .ok ref := by
  unfold ParseNormalizedNamed at h
  split at h
  · cases h
  · simp only at h
    split at h
    · cases h
    · rename_i hl
      exact ⟨by simpa using hl, h⟩

/-- Cutting `host/remainder` before a suffix without `/` cuts inside the remainder. -/
theorem append_eq_split {D R1 N suf : Str} (h : D ++ '/' :: R1 = N ++ suf) (hs : '/' ∉ suf) :
    ∃ R, N = D ++ '/' :: R ∧ R1 = R ++ suf := by
  induction D generalizing N with
  | nil =>
    cases N with
    | nil =>
      simp at h
      exact absurd (by simp [← h]) hs
    | cons n ns =>
      simp at h
      exact ⟨ns, by simp [← h.1], h.2⟩
  | cons d ds ih =>
    cases N with
    | nil =>
      simp at h
      exfalso
      apply hs
      rw [← h]
      simp
    | cons n ns =>
      simp at h
      obtain ⟨R, h1, h2⟩ := ih h.2
      exact ⟨R, by simp [h.1, h1], h2⟩

theorem splitName_rest {D R : Str} {repo : repository} (hD : '/' ∉ D)
    (h : splitName (D ++ '/' :: R) = some repo) : ':' ∉ R := by
  unfold splitName at h
  rw [cutFirst_eq_some.mpr ⟨rfl, hD⟩] at h
  simp only at h
  split at h
  · rename_i hdp
    simp only [Bool.and_eq_true] at hdp
    intro hm
    exact (pathRun_ne hdp.2 _ hm).2 rfl
  · split at h
    · rename_i hp
      intro hm
      exact (pathRun_ne hp ':' (by simp [hm])).2 rfl
    · cases h

/-- A reference returned by `ParseNormalizedNamed` is well formed. -/
theorem ParseNormalizedNamed_wellFormed {s : Str} {ref : Named}
    (h : ParseNormalizedNamed s = .ok ref) : ref.WellFormed := by
  obtain ⟨hlow, hp⟩ := ParseNormalizedNamed_inv h
  obtain ⟨hD1, hD2, hD3, hD4⟩ := splitDockerDomain_normal s
  generalize (splitDockerDomain s).1 = D at *
  generalize (splitDockerDomain s).2 = R1 at *
  obtain ⟨N, repo, tag, dig, hx, hsn, hlen, htag, hdig, href⟩ := Parse_parts hp
  have hsuf : '/' ∉ tagPart tag ++ digestPart dig := by
    intro hm
    rcases List.mem_append.mp hm with hm | hm
    · exact (tagPart_ne htag).2 hm
    · exact digestPart_ne (fun d hd => (hdig d hd).1) hm
  rw [List.append_assoc] at hx
  obtain ⟨R, hN, hR1⟩ := append_eq_split hx hsuf
  subst hN
  have hcolon := splitName_rest hD1 hsn
  have hRlow : ToLower R = R := by
    obtain ⟨x, hx⟩ := remoteName_append (tagPart tag ++ digestPart dig) hcolon
    rw [hR1, hx] at hlow
    exact ToLower_of_append hlow
  subst href
  refine ⟨?_, ?_, ?_⟩
  · rw [mkRef_repo]
    refine ⟨D, R, hD1, hD2, hD3, ?_, hcolon, hRlow, hsn, hlen⟩
    intro hD
    have := hD4 hD
    rw [hR1] at this
    rcases List.mem_append.mp this with hm | hm
    · exact hm
    · exact absurd hm hsuf
  · rw [mkRef_asTagged]
    exact htag
  · rw [mkRef_asDigested]
    exact hdig


theorem isIdentifier_of_slash {s : Str} (h : '/' ∈ s) : isIdentifier s = false := by
  unfold isIdentifier
  have : s.all isLowerHex = false := by
    rw [Bool.eq_false_iff]
    intro hall
    rw [List.all_eq_true] at hall
    exact absurd (hall '/' h) (by decide)
  simp [this]

/-- The algorithm of a validated digest is written in lower case. -/
theorem digestValidate_lower {alg enc : Str}
    (h : ((decide (alg = "sha256".toList) && decide (enc.length = 64))
      || (decide (alg = "sha384".toList) && decide (enc.length = 96))
      || (decide (alg = "sha512".toList) && decide (enc.length = 128))) = true) :
    ToLower alg = alg := by
  simp only [Bool.or_eq_true, Bool.and_eq_true, decide_eq_true_eq] at h
  rcases h with (h | h) | h <;> rw [h.1] <;> decide

/-- The lower-case test of `ParseNormalizedNamed` passes on a lower-case remainder
followed by a valid tag and a valid digest. -/
theorem remoteName_lower {R : Str} {tag dig : Option Str} (hcolon : ':' ∉ R)
    (hlow : ToLower R = R)
    (hdig : ∀ d, dig = some d → isDigest d = true ∧ digestValidate d = true) :
    ToLower (match cutFirst ':' (R ++ (tagPart tag ++ digestPart dig)) with
        | some (a, _) => a
        | none => R ++ (tagPart tag ++ digestPart dig))
      = (match cutFirst ':' (R ++ (tagPart tag ++ digestPart dig)) with
        | some (a, _) => a
        | none => R ++ (tagPart tag ++ digestPart dig)) := by
  cases tag with
  | some t =>
    simp only [tagPart, List.cons_append]
    rw [cutFirst_eq_some.mpr ⟨rfl, hcolon⟩]
    exact hlow
  | none =>
    cases dig with
    | none =>
      simp only [tagPart, digestPart, List.append_nil]
      rw [cutFirst_eq_none.mpr hcolon]
      exact hlow
    | some d =>
      obtain ⟨h1, h2⟩ := hdig d rfl
      unfold digestValidate at h2
      cases hc : cutFirst ':' d with
      | none => simp [hc] at h2
      | some ab =>
        obtain ⟨alg, enc⟩ := ab
        simp only [hc, Bool.and_eq_true] at h2
        obtain ⟨hd, halg⟩ := cutFirst_eq_some.mp hc
        have hal := digestValidate_lower h2.1
        have hcut : cutFirst ':' (R ++ (tagPart none ++ digestPart (some d)))
            = some (R ++ '@' :: alg, enc) := by
          apply cutFirst_eq_some.mpr
          constructor
          · simp [tagPart, digestPart, hd]
          · intro hm
            rcases List.mem_append.mp hm with hm | hm
            · exact hcolon hm
            · rcases List.mem_cons.mp hm with hm | hm
              · exact absurd hm (by decide)
              · exact halg hm
        rw [hcut]
        simp only
        unfold ToLower at *
        rw [List.map_append, List.map_cons, hlow, hal]
        rfl

/-- The canonical string of a well-formed reference parses back to the reference. -/
theorem ParseNormalizedNamed_String {ref : Named} (h : ref.WellFormed) :
    ParseNormalizedNamed ref.String = .ok ref := by
  obtain ⟨⟨D, R, hD1, hD2, hD3, hD4, hcolon, hlow, hsn, hlen⟩, htag, hdig⟩ := h
  have hname : ref.repo.Name = D ++ '/' :: R := (splitName_some hsn).1
  have hstr : ref.String = D ++ '/' :: (R ++ (tagPart ref.asTagged ++ digestPart ref.asDigested)) := by
    conv_lhs => rw [Named.eq_mkRef ref, mkRef_String, hname]
    simp
  have href : mkRef ref.repo ref.asTagged ref.asDigested = ref := (Named.eq_mkRef ref).symm
  rw [hstr]
  unfold ParseNormalizedNamed
  rw [isIdentifier_of_slash (by simp)]
  rw [splitDockerDomain_of_normal hD1 hD2 hD3 (fun hD => by simp [hD4 hD])]
  simp only [Bool.false_eq_true, if_false]
  rw [if_neg (by simpa using remoteName_lower hcolon hlow hdig)]
  have hp := Parse_of_parts ref.asTagged ref.asDigested hsn (splitTag_name hcolon) hlen htag hdig
  rw [href] at hp
  rw [← hp]
  simp


theorem leaf_unique {a b l1 l2 : Str} (h : a ++ '/' :: l1 = b ++ '/' :: l2) (h1 : '/' ∉ l1)
    (h2 : '/' ∉ l2) : l1 = l2 := by
  have e1 : cutLast '/' (a ++ '/' :: l1) = some (a, l1) := cutLast_eq_some.mpr ⟨rfl, h1⟩
  have e2 : cutLast '/' (a ++ '/' :: l1) = some (b, l2) := cutLast_eq_some.mpr ⟨h, h2⟩
  rw [e1] at e2
  simp only [Option.some.injEq, Prod.mk.injEq] at e2
  exact e2.2

theorem WithTag_mkRef (r : repository) (tag dig : Option Str) {t : Str} (h : isTag t = true) :
    WithTag (mkRef r tag dig) t = .ok (mkRef r (some t) dig) := by
  cases tag <;> cases dig <;> simp [WithTag, mkRef, h, Named.repo]

theorem WithDigest_mkRef (r : repository) (tag dig : Option Str) {d : Str}
    (h : isDigest d = true) :
    WithDigest (mkRef r tag dig) d = .ok (mkRef r tag (some d)) := by
  cases tag <;> cases dig <;> simp [WithDigest, mkRef, h, Named.repo]

/-- The name of a relocated reference ends in the leaf it was built from. -/
theorem relocated_name {x leaf : Str} {new : Named} (hcolon : ':' ∉ leaf) (hat : '@' ∉ leaf)
    (h : ParseNormalizedNamed (x ++ '/' :: leaf) = .ok new) :
    new = mkRef new.repo none none ∧ ∃ y, new.repo.Name = y ++ '/' :: leaf := by
  obtain ⟨y, hy⟩ := splitDockerDomain_suffix x leaf
  have hp := ParseNormalizedNamed_ok h
  rw [hy] at hp
  obtain ⟨h1, h2⟩ := Parse_bare hcolon hat hp
  exact ⟨h1, y, (splitName_some h2).1⟩

/-- The leaf of a parsed name is unique and has no `:` and no `@`. -/
theorem leaf_clean {s pre leaf : Str} {ref : Named} (hp : ParseNormalizedNamed s = .ok ref)
    (hname : ref.Name = pre ++ '/' :: leaf) (hl : '/' ∉ leaf) : ':' ∉ leaf ∧ '@' ∉ leaf := by
  obtain ⟨-, pre2, leaf2, h1, h2, h3, h4⟩ := ParseNormalizedNamed_name hp
  rw [hname] at h1
  have := leaf_unique h1 hl h2
  subst this
  exact ⟨h3, h4⟩

/-- The output of `ApplyToImage`, from the parsed image and the repository `frepo` the
repository step ends with. -/
theorem ApplyToImage_of_parts {i : imageMeta} {image pre leaf : Str} {ref : Named}
    (frepo : repository) (hp : ParseNormalizedNamed image = .ok ref)
    (hname : ref.Name = pre ++ '/' :: leaf) (hl : '/' ∉ leaf)
    (hR0 : i.Repository = [] → frepo = ref.repo)
    (hR1 : i.Repository ≠ [] → ∃ new,
      ParseNormalizedNamed (TrimSuffix i.Repository ['/'] ++ '/' :: leaf) = .ok new
        ∧ frepo = new.repo)
    (hT : i.Tag ≠ [] → isTag i.Tag = true) :
    i.ApplyToImage image
      = .ok (mkRef frepo (if i.Tag = [] then ref.asTagged else some i.Tag)
          (if i.Tag = [] then ref.asDigested else none)).String := by
  obtain ⟨-, htag, hdig⟩ := ParseNormalizedNamed_wellFormed hp
  obtain ⟨hcolon, hat⟩ := leaf_clean hp hname hl
  -- the tag step, on any reference with repository `frepo`
  have tagStep : ∀ cur : Named, cur.repo = frepo → cur.asTagged = ref.asTagged →
      cur.asDigested = ref.asDigested →
      (match (if i.Tag ≠ [] then WithTag (TrimNamed cur) i.Tag else .ok cur : Except Error Named) with
        | .error err => .error err
        | .ok fin => .ok fin.String)
      = (.ok (mkRef frepo (if i.Tag = [] then ref.asTagged else some i.Tag)
          (if i.Tag = [] then ref.asDigested else none)).String : Except Error Str) := by
    intro cur h1 h2 h3
    by_cases hTe : i.Tag = []
    · simp only [hTe, ne_eq, not_true_eq_false, if_false, if_true]
      rw [← h1, ← h2, ← h3, ← Named.eq_mkRef]
    · have : TrimNamed cur = mkRef frepo none none := by simp [TrimNamed, mkRef, h1]
      simp only [hTe, ne_eq, not_false_eq_true, if_true, if_false, this,
        WithTag_mkRef frepo none none (hT hTe)]
  unfold imageMeta.ApplyToImage
  simp only [hp]
  by_cases hRe : i.Repository = []
  · simp only [hRe, ne_eq, not_true_eq_false, if_false]
    exact tagStep ref (hR0 hRe).symm rfl rfl
  · obtain ⟨new, hnew, hfr⟩ := hR1 hRe
    obtain ⟨hbare, -⟩ := relocated_name hcolon hat hnew
    simp only [hRe, ne_eq, not_false_eq_true, if_true, hname, imageName_append hl, hnew]
    rw [hbare, ← hfr]
    have key := tagStep (mkRef frepo ref.asTagged ref.asDigested) (mkRef_repo _ _ _)
      (mkRef_asTagged _ _ _) (mkRef_asDigested _ _ _)
    cases ht : ref.asTagged with
    | none =>
      cases hd : ref.asDigested with
      | none =>
        rw [ht, hd] at key
        exact key
      | some d =>
        rw [ht, hd] at key
        simp only [WithDigest_mkRef frepo none none (hdig d hd).1]
        exact key
    | some t =>
      cases hd : ref.asDigested with
      | none =>
        rw [ht, hd] at key
        simp only [WithTag_mkRef frepo none none (htag t ht)]
        exact key
      | some d =>
        rw [ht, hd] at key
        simp only [WithTag_mkRef frepo none none (htag t ht),
          WithDigest_mkRef frepo (some t) none (hdig d hd).1]
        exact key


/-- What a successful `ApplyToImage` ends with: the repository `frepo` after the
repository step, which keeps the leaf of the input, and the output built from it. -/
theorem ApplyToImage_final {i : imageMeta} {image out : Str}
    (h : i.ApplyToImage image = .ok out) :
    ∃ ref frepo pre leaf pre2, ParseNormalizedNamed image = .ok ref
      ∧ ref.Name = pre ++ '/' :: leaf ∧ '/' ∉ leaf
      ∧ frepo.Name = pre2 ++ '/' :: leaf ∧ NormalRepo frepo
      ∧ (i.Repository = [] → frepo = ref.repo)
      ∧ (i.Repository ≠ [] → ∃ new,
          ParseNormalizedNamed (TrimSuffix i.Repository ['/'] ++ '/' :: leaf) = .ok new
            ∧ frepo = new.repo)
      ∧ (i.Tag ≠ [] → isTag i.Tag = true)
      ∧ out = (mkRef frepo (if i.Tag = [] then ref.asTagged else some i.Tag)
          (if i.Tag = [] then ref.asDigested else none)).String := by
  obtain ⟨ref, cur, hp, hnorepo, hrepo, hout0, hout1⟩ := ApplyToImage_ok h
  have htags : cur.asTagged = ref.asTagged ∧ cur.asDigested = ref.asDigested := by
    by_cases hR : i.Repository = []
    · rw [hnorepo hR]
      exact ⟨rfl, rfl⟩
    · obtain ⟨_, _, _, -, -, -, -, -, h1, h2⟩ := hrepo hR
      exact ⟨h1, h2⟩
  have hout : out = (mkRef cur.repo (if i.Tag = [] then ref.asTagged else some i.Tag)
      (if i.Tag = [] then ref.asDigested else none)).String := by
    by_cases hT : i.Tag = []
    · rw [hout0 hT]
      simp only [hT, if_true]
      rw [← htags.1, ← htags.2, ← Named.eq_mkRef]
    · rw [(hout1 hT).2]
      simp only [hT, if_false]
      rw [mkRef_String]
      simp [tagPart, digestPart, Named.Name]
  by_cases hR : i.Repository = []
  · obtain ⟨-, pre, leaf, hname, hl, -, -⟩ := ParseNormalizedNamed_name hp
    have hcur := hnorepo hR
    subst hcur
    exact ⟨cur, cur.repo, pre, leaf, pre, hp, hname, hl, hname,
      (ParseNormalizedNamed_wellFormed hp).1, fun _ => rfl, fun h => absurd hR h,
      fun hT => (hout1 hT).1, hout⟩
  · obtain ⟨pre, leaf, new, hname, hl, hnew, -, hcr, -, -⟩ := hrepo hR
    obtain ⟨hcolon, hat⟩ := leaf_clean hp hname hl
    obtain ⟨-, y, hy⟩ := relocated_name hcolon hat hnew
    refine ⟨ref, cur.repo, pre, leaf, y, hp, hname, hl, ?_, ?_, fun h => absurd h hR,
      fun _ => ⟨new, hnew, hcr⟩, fun hT => (hout1 hT).1, hout⟩
    · rw [hcr]
      exact hy
    · rw [hcr]
      exact (ParseNormalizedNamed_wellFormed hnew).1

/-- The reference a successful `ApplyToImage` serializes is well formed. -/
theorem final_wellFormed {i : imageMeta} {ref : Named} {frepo : repository}
    (href : ref.WellFormed) (hrepo : NormalRepo frepo) (hT : i.Tag ≠ [] → isTag i.Tag = true) :
    (mkRef frepo (if i.Tag = [] then ref.asTagged else some i.Tag)
      (if i.Tag = [] then ref.asDigested else none)).WellFormed := by
  refine ⟨by rw [mkRef_repo]; exact hrepo, ?_, ?_⟩
  · rw [mkRef_asTagged]
    intro t ht
    by_cases hTe : i.Tag = []
    · simp only [hTe, if_true] at ht
      exact href.2.1 t ht
    · simp only [hTe, if_false, Option.some.injEq] at ht
      rw [← ht]
      exact hT hTe
  · rw [mkRef_asDigested]
    intro d hd
    by_cases hTe : i.Tag = []
    · simp only [hTe, if_true] at hd
      exact href.2.2 d hd
    · simp [hTe] at hd

/-- C18: when `ApplyToImage` with `A` on `s` gives `t` and `ApplyToImage` with `B` on `t`
gives `u`, `ApplyToImage` with `A.Union(B)` on `s` gives `u`; and `ApplyToImage` with `A`
on its own output `t` gives `t` again. -/
theorem ApplyToImage_sequence_union (A B : imageMeta) (s t u : Str)
    (h1 : A.ApplyToImage s = .ok t) (h2 : B.ApplyToImage t = .ok u) :
    (A.Union B).ApplyToImage s = .ok u ∧ A.ApplyToImage t = .ok t := by
  obtain ⟨refA, frepoA, preA, leaf, preA2, hpA, hnameA, hlA, hfnameA, hnormA, hA0, hA1, hAT,
    houtA⟩ := ApplyToImage_final h1
  have hwfA := final_wellFormed (ParseNormalizedNamed_wellFormed hpA) hnormA hAT
  have hpt := ParseNormalizedNamed_String hwfA
  rw [← houtA] at hpt
  have hfinName : (mkRef frepoA (if A.Tag = [] then refA.asTagged else some A.Tag)
      (if A.Tag = [] then refA.asDigested else none)).Name = preA2 ++ '/' :: leaf := by
    unfold Named.Name
    rw [mkRef_repo]
    exact hfnameA
  constructor
  · obtain ⟨refB, frepoB, preB, leafB, preB2, hpB, hnameB, hlB, -, -, hB0, hB1, hBT, houtB⟩ :=
      ApplyToImage_final h2
    rw [hpt] at hpB
    injection hpB with hpB
    subst hpB
    rw [hfinName] at hnameB
    have hleaf := leaf_unique hnameB hlA hlB
    subst hleaf
    rw [mkRef_repo] at hB0
    rw [mkRef_asTagged, mkRef_asDigested] at houtB
    have hU := ApplyToImage_of_parts (i := A.Union B) frepoB hpA hnameA hlA
      (by
        intro hR
        rw [Union_Repository] at hR
        by_cases hR2 : B.Repository = []
        · rw [if_pos hR2] at hR
          rw [hB0 hR2, hA0 hR]
        · rw [if_neg hR2] at hR
          exact absurd hR hR2)
      (by
        intro hR
        rw [Union_Repository] at hR ⊢
        by_cases hR2 : B.Repository = []
        · rw [if_pos hR2] at hR ⊢
          rw [hB0 hR2]
          exact hA1 hR
        · rw [if_neg hR2]
          exact hB1 hR2)
      (by
        intro hT
        rw [Union_Tag] at hT ⊢
        by_cases hT2 : B.Tag = []
        · rw [if_pos hT2] at hT ⊢
          exact hAT hT
        · rw [if_neg hT2]
          exact hBT hT2)
    rw [hU, houtB]
    congr 2
    simp only [Union_Tag]
    by_cases hT1 : A.Tag = [] <;> by_cases hT2 : B.Tag = [] <;> simp [hT1, hT2]
  · have hA := ApplyToImage_of_parts (i := A) frepoA hpt hfinName hlA
      (by intro _; rw [mkRef_repo]) hA1 hAT
    rw [hA, houtA, mkRef_asTagged, mkRef_asDigested]
    congr 2
    by_cases hT1 : A.Tag = [] <;> simp [hT1]

/-- C14: with the rule without repository and tag, `ApplyToImage` returns the normalized
form of a valid image, host and remainder as `splitDockerDomain` gives them, and returns
that form again when applied to it. -/
theorem ApplyToImage_reserialize_stable (image : Str) (ref : Named)
    (h : ParseNormalizedNamed image = .ok ref) :
    (imageMeta.mk [] []).ApplyToImage image = .ok ref.String
      ∧ ref.String = (splitDockerDomain image).1 ++ '/' :: (splitDockerDomain image).2
      ∧ (imageMeta.mk [] []).ApplyToImage ref.String = .ok ref.String := by
  refine ⟨?_, ?_, ?_⟩
  · rw [ApplyToImage_empty _ _ rfl rfl, h]
  · obtain ⟨N, repo, tag, dig, hx, hsn, -, -, -, href⟩ := Parse_parts (ParseNormalizedNamed_ok h)
    rw [hx, href, mkRef_String, (splitName_some hsn).1]
  · rw [ApplyToImage_empty _ _ rfl rfl,
      ParseNormalizedNamed_String (ParseNormalizedNamed_wellFormed h)]

/-- C14, witness: `nginx:1.21` is normalized to `docker.io/library/nginx:1.21`, which is
returned as it is. -/
theorem ApplyToImage_reserialize_stable_witness :
    (imageMeta.mk [] []).ApplyToImage "nginx:1.21".toList
        = .ok "docker.io/library/nginx:1.21".toList
      ∧ "docker.io/library/nginx:1.21".toList
          = (splitDockerDomain "nginx:1.21".toList).1
            ++ '/' :: (splitDockerDomain "nginx:1.21".toList).2
      ∧ (imageMeta.mk [] []).ApplyToImage "docker.io/library/nginx:1.21".toList
          = .ok "docker.io/library/nginx:1.21".toList :=
  ApplyToImage_reserialize_stable "nginx:1.21".toList
    (.taggedReference ⟨"docker.io".toList, "library/nginx".toList⟩ "1.21".toList) (by decide)

/-- C18, witness: the repository override, then the tag override, against their union. -/
theorem ApplyToImage_sequence_union_witness :
    ruleRepository.ApplyToImage imageTagged = .ok "myreg.io/myorg/my-image:v1.2.3".toList
      ∧ ruleTag.ApplyToImage "myreg.io/myorg/my-image:v1.2.3".toList
          = .ok "myreg.io/myorg/my-image:latest".toList
      ∧ (ruleRepository.Union ruleTag).ApplyToImage imageTagged
          = .ok "myreg.io/myorg/my-image:latest".toList
      ∧ ruleRepository.ApplyToImage "myreg.io/myorg/my-image:v1.2.3".toList
          = .ok "myreg.io/myorg/my-image:v1.2.3".toList :=
  ⟨by decide, by decide,
    ApplyToImage_sequence_union ruleRepository ruleTag imageTagged
      "myreg.io/myorg/my-image:v1.2.3".toList "myreg.io/myorg/my-image:latest".toList
      (by decide) (by decide)⟩

end config
